import Mathlib

/-!
Shallow embedding of `fix_spf.py` (microbiome_helper): a STAMP/SPF taxonomy
table fixer.  Rows are lists of string cells; the first `col_count` cells are
taxonomic level columns.  The three passes of the script are embedded as pure
functions: the ambiguity normalizer (`replace_ambig_labels`), the hierarchy
enforcer (`force_strict_spf_hierarchy`), and the gap filler
(`check_intermediate_unclassified`).  Python fatal terminations (sys.exit and
uncaught exceptions) are modelled with the `Except` monad and the `PyErr`
error type.
-/

namespace FixSpf

/-- A row of the SPF table: the list of its cell values. -/
abbrev Row := List String

/-- The SPF table, rows in file order. -/
abbrev Table := List Row

/-- Positional cell access, as `row[i]` on a pandas row (total, with a default
for out-of-range positions that never occurs on rectangular input). -/
def getCell (r : Row) (i : Nat) : String := r.getD i ""

/-- Positional single-cell update, as a pandas loc-assignment into one cell. -/
def setCell (r : Row) (i : Nat) (v : String) : Row := r.set i v

/-- Cell of a table at row `k`, column `i`. -/
def cellAt (t : Table) (k i : Nat) : String := getCell (t.getD k []) i

/-- Boolean test that a character list starts with the given needle. -/
def startsWithL : List Char → List Char → Bool
  | [], _ => true
  | _ :: _, [] => false
  | a :: as, b :: bs => a == b && startsWithL as bs

/-- Boolean substring test on character lists. -/
def containsL (n : List Char) : List Char → Bool
  | [] => startsWithL n []
  | c :: hs => startsWithL n (c :: hs) || containsL n hs

/-- Python substring containment `needle in hay`. -/
def strContains (hay needle : String) : Bool := containsL needle.data hay.data

/-- Python `str.lower` for the ASCII data in scope. -/
def lowerStr (s : String) : String := ⟨s.data.map Char.toLower⟩

/-- Whether a label contains the `"_dup"` marker substring somewhere. -/
def hasDupTag (s : String) : Bool := strContains s "_dup"

/-- First-occurrence deduplication with an accumulator of already seen values;
`uniqueKeepFirst` below models `pandas.Series.unique`, which keeps the first
occurrence of each distinct value in order of appearance. -/
def uniqueAux : List String → List String → List String
  | [], _ => []
  | a :: l, seen => if a ∈ seen then uniqueAux l seen else a :: uniqueAux l (a :: seen)

/-- The distinct values of a list in first-occurrence order (pandas `unique`). -/
def uniqueKeepFirst (l : List String) : List String := uniqueAux l []

/-- The disambiguated label `label + "_dup" + str(idx)` of the script. -/
def dupLabel (label : String) (idx : Nat) : String := label ++ "_dup" ++ Nat.repr idx

/-- One row's update for one parent value `p` during the `_dupN` renaming:
the row is renamed when its fixed membership mask bit `m` is set and its
parent cell equals `p` (`rows2change` in the script). -/
def applyParentRename (i : Nat) (newLabel p : String) (m : Bool) (r : Row) : Row :=
  if m = true ∧ getCell r (i - 1) = p then setCell r i newLabel else r

/-- Processing of one label value of column `i` inside
`force_strict_spf_hierarchy`: skip `"Unclassified"`, skip labels matching a
single row, and otherwise rename each matching row to `label_dupN` where `N`
indexes the row's parent in the first-occurrence list of distinct parents. -/
def processLabel (t : Table) (i : Nat) (label : String) : Table :=
  if label = "Unclassified" then t
  else
    let matching : List Bool := t.map fun r => decide (getCell r i = label)
    if matching.count true = 1 then t
    else
      let ups := uniqueKeepFirst
        (((t.zip matching).filter fun rm => rm.2).map fun rm => getCell rm.1 (i - 1))
      if 1 < ups.length then
        (ups.enum).foldl
          (fun t2 ip =>
            (t2.zip matching).map fun rm => applyParentRename i (dupLabel label ip.1) ip.2 rm.2 rm.1)
          t
      else t

/-- One column pass of the hierarchy enforcer: the distinct labels of column
`i` are computed once up front and then processed in order. -/
def processColumn (t : Table) (i : Nat) : Table :=
  (uniqueKeepFirst (t.map fun r => getCell r i)).foldl (fun t2 lab => processLabel t2 i lab) t

/-- The hierarchy enforcer `force_strict_spf_hierarchy` of the script: columns
`0 ≤ i < col_count` in ascending order, skipping column 0. -/
def force_strict_spf_hierarchy (t : Table) (col_count : Nat) : Table :=
  (List.range col_count).foldl (fun t2 i => if i = 0 then t2 else processColumn t2 i) t

/-- Fatal terminations of the Python process: an uncaught `ValueError` from
`max([])`, an uncaught `AttributeError` from `None.group(...)` after a failed
regex, or an explicit `sys.exit(message)`. -/
inductive PyErr : Type
  | valueError : PyErr
  | attributeError : PyErr
  | sysExit : String → PyErr
deriving DecidableEq, Repr

/-- The diagnostic text each fatal termination prints. -/
def PyErr.message : PyErr → String
  | .valueError => "max() arg is an empty sequence"
  | .attributeError => "AttributeError: NoneType object has no attribute group"
  | .sysExit m => m

/-- Indices of `"Unclassified"` cells (first component) and of classified
cells (second component) of a lineage, in ascending order, starting at `n`. -/
def classifyIdx : Nat → List String → List Nat × List Nat
  | _, [] => ([], [])
  | n, t :: ts =>
    let rest := classifyIdx (n + 1) ts
    if t = "Unclassified" then (n :: rest.1, rest.2) else (rest.1, n :: rest.2)

/-- Python `min` over a nonempty list of naturals. -/
def pyMin : List Nat → Nat
  | [] => 0
  | a :: as => as.foldl Nat.min a

/-- Python `max` over a nonempty list of naturals. -/
def pyMax : List Nat → Nat
  | [] => 0
  | a :: as => as.foldl Nat.max a

/-- The string `"X" * n`. -/
def xRepeat (n : Nat) : String := ⟨List.replicate n 'X'⟩

/-- The backward walk of the gap filler for one unclassified index `u`:
`current` counts down; a level is skipped (incrementing `steps`) when its
current value is `"Unclassified"` or its index is not in the classified set;
the first non-skipped level supplies the filler label. -/
def fillWalk (cl : List Nat) (u : Nat) : Nat → Nat → List String → List String
  | 0, _, tx => tx
  | c + 1, steps, tx =>
    if getCell tx c = "Unclassified" ∨ c ∉ cl then fillWalk cl u c (steps + 1) tx
    else setCell tx u (getCell tx c ++ "_" ++ xRepeat steps)

/-- The `sys.exit` message for a lineage whose first level is Unclassified. -/
def fatalLineage (taxa : List String) : String :=
  "Stopping - first level of this lineage is Unclassified, but lower levels are classified:\n"
    ++ String.intercalate " " taxa

/-- The per-row body of `check_intermediate_unclassified`: `taxa` is the slice
of levels `0 .. max_col_i - 1`.  Mirrors the Python control flow, including
the `ValueError` that `max(classified_i)` raises on an empty list. -/
def processRowTaxa (taxa : List String) : Except PyErr (List String) :=
  let parts := classifyIdx 0 taxa
  if parts.1 = [] then .ok taxa
  else if parts.2 = [] then .error .valueError
  else if pyMin parts.1 < pyMax parts.2 then
    if getCell taxa 0 = "Unclassified" then .error (.sysExit (fatalLineage taxa))
    else
      .ok (parts.1.foldl
        (fun tx u => if u < pyMax parts.2 then fillWalk parts.2 u u 1 tx else tx) taxa)
  else .ok taxa

/-- Row-by-row processing that stops at the first fatal row, as the Python
loop does. -/
def mapExceptRows (f : Row → Except PyErr Row) : Table → Except PyErr Table
  | [] => .ok []
  | r :: rs =>
    match f r with
    | .error e => .error e
    | .ok r2 =>
      match mapExceptRows f rs with
      | .error e => .error e
      | .ok rs2 => .ok (r2 :: rs2)

/-- The gap filler `check_intermediate_unclassified`: for each row, the slice
of the first `col_count - 1` cells is checked and possibly filled in, and the
rest of the row is passed through. -/
def check_intermediate_unclassified (t : Table) (col_count : Nat) : Except PyErr Table :=
  mapExceptRows (fun r =>
    match processRowTaxa (r.take (col_count - 1)) with
    | .error e => .error e
    | .ok taxa => .ok (taxa ++ r.drop (col_count - 1))) t

/-- The four case-insensitive substrings always replaced by `"Unclassified"`. -/
def str2replace : List String := ["uncultured", "ambiguous_taxa", "metagenome", "unidentified"]

/-- Matching of the regex `D_\d+__` at the head of a character list, returning
the matched prefix and the remainder.  Since a digit run followed by `__` has
no shorter viable alternative, greedy `takeWhile` is exact. -/
def dTagSplit : List Char → Option (List Char × List Char)
  | 'D' :: '_' :: rest =>
    let ds := rest.takeWhile Char.isDigit
    if ds = [] then none
    else
      match rest.drop ds.length with
      | '_' :: '_' :: rest2 => some ('D' :: '_' :: (ds ++ ['_', '_']), rest2)
      | _ => none
  | _ => none

/-- Python `re.match(r"D_\d+__", s)`: anchored at the start; returns group 0. -/
def reMatchDTag (s : String) : Option String :=
  match dTagSplit s.data with
  | some (pfx, _) => some ⟨pfx⟩
  | none => none

/-- Python `re.search(r"D_\d+__(.*)", s)` over a character list: leftmost
position where the tag matches; returns group 1, which extends to the end of
the string. -/
def reSearchDTaxon : List Char → Option String
  | [] => none
  | c :: cs =>
    match dTagSplit (c :: cs) with
    | some (_, rest) => some ⟨rest⟩
    | none => reSearchDTaxon cs

/-- `re.search(r"D_\d+__(.*)", s)` on a string, group 1. -/
def reSearchDTaxonS (s : String) : Option String := reSearchDTaxon s.data

/-- One iteration of the label loop of `replace_ambig_labels`: `acc` is
`out_taxa` so far and `label_i` the enumerate index.  The failed-regex
`AttributeError`s of the script are surfaced as errors. -/
def ambigStep (acc : List String) (label_i : Nat) (label : String) : Except PyErr (List String) :=
  if str2replace.any (fun s => strContains (lowerStr label) s) then .ok (acc ++ ["Unclassified"])
  else if strContains (lowerStr label) "unknown" then
    if label_i = 0 ∨ getCell acc (label_i - 1) = "Unclassified" then .ok (acc ++ ["Unclassified"])
    else
      match reSearchDTaxonS (getCell acc (label_i - 1)) with
      | none => .error .attributeError
      | some preTaxon =>
        match reMatchDTag label with
        | none => .error .attributeError
        | some lvl => .ok (acc ++ [lvl ++ preTaxon ++ "_X"])
  else .ok (acc ++ [label])

/-- The label loop of `replace_ambig_labels` over the remaining labels. -/
def ambigLoop : List String → Nat → List String → Except PyErr (List String)
  | [], _, acc => .ok acc
  | l :: ls, i, acc =>
    match ambigStep acc i l with
    | .error e => .error e
    | .ok acc2 => ambigLoop ls (i + 1) acc2

/-- The per-line taxa rewriting of `replace_ambig_labels`. -/
def replace_ambig_taxa (taxa : List String) : Except PyErr (List String) := ambigLoop taxa 0 []

/-- One data line of `replace_ambig_labels`: lines without any trigger
substring anywhere are passed through verbatim; otherwise the first
`col_count` cells go through the label loop and the rest is appended. -/
def replace_ambig_line (col_count : Nat) (cells : List String) : Except PyErr (List String) :=
  if (str2replace ++ ["unknown"]).any
      (fun s => strContains (lowerStr (String.intercalate "\t" cells)) s) then
    match replace_ambig_taxa (cells.take col_count) with
    | .error e => .error e
    | .ok taxa => .ok (taxa ++ cells.drop col_count)
  else .ok cells

/-- `replace_ambig_labels` over all data lines. -/
def replace_ambig_lines (col_count : Nat) (t : Table) : Except PyErr Table :=
  mapExceptRows (replace_ambig_line col_count) t

/-- The pipeline of `main()`: optional ambiguity normalizer, then the
hierarchy enforcer, then the gap filler. -/
def pipeline (t : Table) (col_count : Nat) (replaceAmbig : Bool) : Except PyErr Table :=
  match (if replaceAmbig then replace_ambig_lines col_count t else .ok t) with
  | .error e => .error e
  | .ok t1 => check_intermediate_unclassified (force_strict_spf_hierarchy t1 col_count) col_count

/-- Number of rows of `t` whose column `i` holds `label`. -/
def countLabel (t : Table) (i : Nat) (label : String) : Nat :=
  (t.filter fun r => decide (getCell r i = label)).length

/-- Distinct parent values (column `i - 1`) of the rows carrying `label` at
column `i`, in first-occurrence order. -/
def distinctParents (t : Table) (i : Nat) (label : String) : List String :=
  uniqueKeepFirst ((t.filter fun r => decide (getCell r i = label)).map fun r => getCell r (i - 1))

/-- Pointwise description of what processing one label of column `i` does to
one row, with counts and parents read off the table `S` the label loop
started from. -/
def labelRowMap (S : Table) (i : Nat) (lab : String) (r : Row) : Row :=
  if lab = "Unclassified" then r
  else if countLabel S i lab = 1 then r
  else if 1 < (distinctParents S i lab).length then
    (if getCell r i = lab then
      setCell r i (dupLabel lab ((distinctParents S i lab).indexOf (getCell r (i - 1))))
    else r)
  else r

/-- Pointwise description of a whole column pass on one row. -/
def colRowMap (S : Table) (i : Nat) (r : Row) : Row := labelRowMap S i (getCell r i) r

/-- Pointwise description of a column pass restricted to the labels already
processed (`done`), used to state the label-loop induction. -/
def doneRowMap (S : Table) (i : Nat) (done : List String) (r : Row) : Row :=
  if getCell r i ∈ done then labelRowMap S i (getCell r i) r else r

/-- Decimal decoding of a digit character list, used to invert `Nat.repr`. -/
def decDigits (a : Nat) (l : List Char) : Nat := l.foldl (fun x c => 10 * x + (c.toNat - 48)) a

/-- The strict-hierarchy invariant at column `i`: rows sharing a
non-`"Unclassified"` label at column `i` agree on column `i - 1`. -/
def InvCol (t : Table) (i : Nat) : Prop :=
  ∀ k1 k2, k1 < t.length → k2 < t.length → cellAt t k1 i = cellAt t k2 i →
    cellAt t k1 i ≠ "Unclassified" → cellAt t k1 (i - 1) = cellAt t k2 (i - 1)

/-- Rectangularity: every row has at least `n` cells. -/
def RectGe (t : Table) (n : Nat) : Prop := ∀ r ∈ t, n ≤ r.length

/-! ## Basic cell lemmas -/

theorem length_setCell (r : Row) (i : Nat) (v : String) : (setCell r i v).length = r.length := by
  simp [setCell]

theorem getCell_setCell_self (r : Row) (i : Nat) (v : String) (h : i < r.length) :
    getCell (setCell r i v) i = v := by
  simp [getCell, setCell, List.getD_eq_getElem?_getD, List.getElem?_set_self h]

theorem getCell_setCell_ne (r : Row) (i j : Nat) (v : String) (h : i ≠ j) :
    getCell (setCell r i v) j = getCell r j := by
  simp [getCell, setCell, List.getD_eq_getElem?_getD, List.getElem?_set_ne h]

theorem cellAt_eq (t : Table) (k i : Nat) : cellAt t k i = getCell (t.getD k []) i := rfl

/-! ## First-occurrence deduplication -/

theorem mem_uniqueAux {x : String} :
    ∀ {l seen : List String}, x ∈ uniqueAux l seen ↔ x ∈ l ∧ x ∉ seen := by
  intro l
  induction l with
  | nil => intro seen; simp [uniqueAux]
  | cons a l ih =>
    intro seen
    by_cases h : a ∈ seen
    · rw [uniqueAux, if_pos h, ih]
      constructor
      · rintro ⟨hx, hns⟩
        exact ⟨List.mem_cons_of_mem _ hx, hns⟩
      · rintro ⟨hx, hns⟩
        rcases List.mem_cons.mp hx with rfl | hx2
        · exact absurd h hns
        · exact ⟨hx2, hns⟩
    · rw [uniqueAux, if_neg h]
      constructor
      · intro hx
        rcases List.mem_cons.mp hx with rfl | hx2
        · exact ⟨List.mem_cons_self _ _, h⟩
        · rcases ih.mp hx2 with ⟨h1, h2⟩
          exact ⟨List.mem_cons_of_mem _ h1, fun hc => h2 (List.mem_cons_of_mem _ hc)⟩
      · rintro ⟨hx, hns⟩
        rcases List.mem_cons.mp hx with rfl | hx2
        · exact List.mem_cons_self _ _
        · by_cases hxa : x = a
          · subst hxa; exact List.mem_cons_self _ _
          · refine List.mem_cons_of_mem _ (ih.mpr ⟨hx2, fun hc => ?_⟩)
            rcases List.mem_cons.mp hc with h1 | h1
            · exact hxa h1
            · exact hns h1

theorem mem_uniqueKeepFirst {x : String} {l : List String} :
    x ∈ uniqueKeepFirst l ↔ x ∈ l := by
  simp [uniqueKeepFirst, mem_uniqueAux]

theorem nodup_uniqueAux : ∀ (l seen : List String), (uniqueAux l seen).Nodup := by
  intro l
  induction l with
  | nil => intro seen; simp [uniqueAux]
  | cons a l ih =>
    intro seen
    by_cases h : a ∈ seen
    · simpa [uniqueAux, if_pos h] using ih seen
    · simp only [uniqueAux, if_neg h, List.nodup_cons]
      refine ⟨fun hc => ?_, ih (a :: seen)⟩
      exact (mem_uniqueAux.mp hc).2 (List.mem_cons_self _ _)

theorem nodup_uniqueKeepFirst (l : List String) : (uniqueKeepFirst l).Nodup :=
  nodup_uniqueAux l []

theorem uniqueKeepFirst_singleton_of_all_eq {l : List String} {v : String}
    (hne : l ≠ []) (hall : ∀ x ∈ l, x = v) : uniqueKeepFirst l = [v] := by
  have hv : v ∈ uniqueKeepFirst l := by
    rw [mem_uniqueKeepFirst]
    cases l with
    | nil => exact absurd rfl hne
    | cons a l2 =>
      have ha := hall a (List.mem_cons_self _ _)
      rw [← ha]
      exact List.mem_cons_self _ _
  have hsub : ∀ x ∈ uniqueKeepFirst l, x = v := fun x hx => hall x (mem_uniqueKeepFirst.mp hx)
  have hnd := nodup_uniqueKeepFirst l
  rcases hu : uniqueKeepFirst l with _ | ⟨b, _ | ⟨c, cs⟩⟩
  · rw [hu] at hv; simp at hv
  · rw [hu] at hsub
    rw [hsub b (List.mem_cons_self _ _)]
  · rw [hu] at hsub hnd
    have hb := hsub b (List.mem_cons_self _ _)
    have hc := hsub c (List.mem_cons_of_mem _ (List.mem_cons_self _ _))
    rw [hb, hc] at hnd
    simp at hnd

theorem all_eq_of_uniqueKeepFirst_len_le_one {l : List String}
    (h : (uniqueKeepFirst l).length ≤ 1) : ∀ x ∈ l, ∀ y ∈ l, x = y := by
  intro x hx y hy
  have hxu : x ∈ uniqueKeepFirst l := mem_uniqueKeepFirst.mpr hx
  have hyu : y ∈ uniqueKeepFirst l := mem_uniqueKeepFirst.mpr hy
  rcases hu : uniqueKeepFirst l with _ | ⟨b, _ | ⟨c, cs⟩⟩
  · rw [hu] at hxu; simp at hxu
  · rw [hu] at hxu hyu
    simp only [List.mem_singleton] at hxu hyu
    rw [hxu, hyu]
  · rw [hu] at h; simp at h

/-! ## Substring machinery -/

theorem startsWithL_iff :
    ∀ (n h : List Char), startsWithL n h = true ↔ ∃ t, h = n ++ t := by
  intro n
  induction n with
  | nil => intro h; simp [startsWithL]
  | cons a as ih =>
    intro h
    cases h with
    | nil =>
      refine ⟨fun hx => absurd hx (by simp [startsWithL]), ?_⟩
      rintro ⟨t, ht⟩
      exact absurd ht.symm (List.cons_ne_nil _ _)
    | cons b bs =>
      simp only [startsWithL, Bool.and_eq_true, beq_iff_eq, ih]
      constructor
      · rintro ⟨rfl, t, rfl⟩; exact ⟨t, rfl⟩
      · rintro ⟨t, ht⟩
        rw [List.cons_append] at ht
        injection ht with h1 h2
        exact ⟨h1.symm, t, h2⟩

theorem containsL_iff :
    ∀ (h n : List Char), containsL n h = true ↔ ∃ s t, h = s ++ n ++ t := by
  intro h
  induction h with
  | nil =>
    intro n
    simp only [containsL, startsWithL_iff]
    constructor
    · rintro ⟨t, ht⟩
      exact ⟨[], t, by simpa using ht⟩
    · rintro ⟨s, t, ht⟩
      have hs : s = [] ∧ n ++ t = [] := by
        apply List.append_eq_nil.mp
        rw [List.append_assoc] at ht
        exact ht.symm
      have hn2 : n = [] ∧ t = [] := List.append_eq_nil.mp hs.2
      exact ⟨[], by simp [hn2.1]⟩
  | cons c hs ih =>
    intro n
    simp only [containsL, Bool.or_eq_true, startsWithL_iff, ih]
    constructor
    · rintro (⟨t, ht⟩ | ⟨s, t, ht⟩)
      · exact ⟨[], t, by simpa using ht⟩
      · exact ⟨c :: s, t, by simp [ht]⟩
    · rintro ⟨s, t, ht⟩
      cases s with
      | nil => exact Or.inl ⟨t, by simpa using ht⟩
      | cons d ds =>
        simp only [List.cons_append, List.append_assoc] at ht
        injection ht with h1 h2
        exact Or.inr ⟨ds, t, by simpa [List.append_assoc] using h2⟩

theorem strContains_iff {hay needle : String} :
    strContains hay needle = true ↔ ∃ s t, hay.data = s ++ needle.data ++ t := by
  simp [strContains, containsL_iff]

/-! ## The `"_dup"` marker and injectivity of the renaming -/

theorem dup_data : "_dup".data = ['_', 'd', 'u', 'p'] := rfl

theorem hasDupTag_of_parts {s : String} {x y : List Char}
    (h : s.data = x ++ "_dup".data ++ y) : hasDupTag s = true := by
  rw [hasDupTag, strContains_iff]
  exact ⟨x, y, h⟩

theorem hasDupTag_dupLabel (L : String) (n : Nat) : hasDupTag (dupLabel L n) = true := by
  apply hasDupTag_of_parts (x := L.data) (y := (Nat.repr n).data)
  simp [dupLabel, String.data_append]

theorem ne_dupLabel_of_no_tag {L M : String} (h : hasDupTag L = false) (n : Nat) :
    L ≠ dupLabel M n := by
  intro he
  rw [he, hasDupTag_dupLabel] at h
  cases h

theorem dup_prefix_aux {A B d1 d2 : List Char}
    (hB : containsL "_dup".data B = false)
    (hle : A.length ≤ B.length)
    (h : A ++ "_dup".data ++ d1 = B ++ "_dup".data ++ d2) : A = B := by
  have h' : A ++ ("_dup".data ++ d1) = B ++ ("_dup".data ++ d2) := by
    simpa [List.append_assoc] using h
  have hA : A = B.take A.length := by
    have h1 : (A ++ ("_dup".data ++ d1)).take A.length = A := List.take_left A _
    rw [h'] at h1
    rw [List.take_append_eq_append_take] at h1
    have h0 : A.length - B.length = 0 := by omega
    rw [h0] at h1
    simpa using h1.symm
  have hBsplit : B = A ++ B.drop A.length := by
    conv_lhs => rw [← List.take_append_drop A.length B]
    rw [← hA]
  obtain ⟨e, rfl⟩ : ∃ e, B = A ++ e := ⟨B.drop A.length, hBsplit⟩
  have h2 : "_dup".data ++ d1 = e ++ ("_dup".data ++ d2) := by
    have h3 : A ++ ("_dup".data ++ d1) = A ++ (e ++ ("_dup".data ++ d2)) := by
      simpa [List.append_assoc] using h'
    exact List.append_cancel_left h3
  rcases e with _ | ⟨x1, _ | ⟨x2, _ | ⟨x3, _ | ⟨x4, rest⟩⟩⟩⟩
  · simp
  · rw [dup_data] at h2
    simp only [List.cons_append, List.nil_append] at h2
    injection h2 with a1 a2
    injection a2 with b1 b2
    exact absurd b1 (by decide)
  · rw [dup_data] at h2
    simp only [List.cons_append, List.nil_append] at h2
    injection h2 with a1 a2
    injection a2 with b1 b2
    injection b2 with c1 c2
    exact absurd c1 (by decide)
  · rw [dup_data] at h2
    simp only [List.cons_append, List.nil_append] at h2
    injection h2 with a1 a2
    injection a2 with b1 b2
    injection b2 with c1 c2
    injection c2 with e1 e2
    exact absurd e1 (by decide)
  · rw [dup_data] at h2
    simp only [List.cons_append, List.nil_append] at h2
    injection h2 with a1 a2
    injection a2 with b1 b2
    injection b2 with c1 c2
    injection c2 with e1 e2
    have hc : containsL "_dup".data (A ++ (x1 :: x2 :: x3 :: x4 :: rest)) = true := by
      apply (containsL_iff _ _).mpr
      refine ⟨A, rest, ?_⟩
      rw [← a1, ← b1, ← c1, ← e1, dup_data]
      simp
    rw [hc] at hB
    cases hB

/-! ## Injectivity of `Nat.repr` -/

theorem toDigitsCore_shift (b : Nat) :
    ∀ (fuel n : Nat) (ds : List Char),
      Nat.toDigitsCore b fuel n ds = Nat.toDigitsCore b fuel n [] ++ ds := by
  intro fuel
  induction fuel with
  | zero => intro n ds; simp [Nat.toDigitsCore]
  | succ f ih =>
    intro n ds
    simp only [Nat.toDigitsCore]
    by_cases h : n / b = 0
    · rw [if_pos h, if_pos h]; rfl
    · rw [if_neg h, if_neg h, ih (n / b) (Nat.digitChar (n % b) :: ds),
        ih (n / b) [Nat.digitChar (n % b)], List.append_assoc]
      rfl

theorem decDigits_append (a : Nat) (l1 l2 : List Char) :
    decDigits a (l1 ++ l2) = decDigits (decDigits a l1) l2 := by
  simp [decDigits, List.foldl_append]

theorem digitChar_val : ∀ m, m < 10 → (Nat.digitChar m).toNat - 48 = m := by decide

theorem decDigits_toDigitsCore :
    ∀ (fuel n : Nat), n < fuel → decDigits 0 (Nat.toDigitsCore 10 fuel n []) = n := by
  intro fuel
  induction fuel with
  | zero => intro n h; omega
  | succ f ih =>
    intro n h
    simp only [Nat.toDigitsCore]
    by_cases h0 : n / 10 = 0
    · have hn : n < 10 := by omega
      rw [if_pos h0]
      have hstep : decDigits 0 [Nat.digitChar (n % 10)] = (Nat.digitChar (n % 10)).toNat - 48 := by
        simp [decDigits]
      rw [hstep, digitChar_val (n % 10) (Nat.mod_lt _ (by omega))]
      omega
    · rw [if_neg h0, toDigitsCore_shift, decDigits_append]
      have hlt : n / 10 < f := by
        have h1 : n / 10 < n := Nat.div_lt_self (by omega) (by omega)
        omega
      rw [ih (n / 10) hlt]
      have : decDigits (n / 10) [Nat.digitChar (n % 10)]
          = 10 * (n / 10) + ((Nat.digitChar (n % 10)).toNat - 48) := by
        simp [decDigits]
      rw [this, digitChar_val (n % 10) (Nat.mod_lt _ (by omega))]
      omega

theorem natRepr_inj {m n : Nat} (h : Nat.repr m = Nat.repr n) : m = n := by
  have hd : Nat.toDigitsCore 10 (m + 1) m [] = Nat.toDigitsCore 10 (n + 1) n [] := by
    have h2 := congrArg String.data h
    simpa [Nat.repr, Nat.toDigits, List.asString] using h2
  have hm := decDigits_toDigitsCore (m + 1) m (Nat.lt_succ_self m)
  have hn := decDigits_toDigitsCore (n + 1) n (Nat.lt_succ_self n)
  rw [hd, hn] at hm
  exact hm.symm

theorem dupLabel_inj {L1 L2 : String} {n1 n2 : Nat}
    (h1 : hasDupTag L1 = false) (h2 : hasDupTag L2 = false)
    (he : dupLabel L1 n1 = dupLabel L2 n2) : L1 = L2 ∧ n1 = n2 := by
  have hdata : L1.data ++ "_dup".data ++ (Nat.repr n1).data
      = L2.data ++ "_dup".data ++ (Nat.repr n2).data := by
    have h3 := congrArg String.data he
    simpa [dupLabel, String.data_append] using h3
  have hcont1 : containsL "_dup".data L1.data = false := h1
  have hcont2 : containsL "_dup".data L2.data = false := h2
  have hAB : L1.data = L2.data := by
    rcases Nat.le_total L1.data.length L2.data.length with hle | hle
    · exact dup_prefix_aux hcont2 hle hdata
    · exact (dup_prefix_aux hcont1 hle hdata.symm).symm
  have hL : L1 = L2 := String.ext hAB
  subst hL
  refine ⟨rfl, ?_⟩
  have hr : (Nat.repr n1).data = (Nat.repr n2).data := List.append_cancel_left hdata
  exact natRepr_inj (String.ext hr)

/-! ## Characterization of one label step of the hierarchy enforcer -/

theorem zipCount_eq (t : List Row) (f : Row → Bool) :
    (t.map f).count true = (t.filter f).length := by
  induction t with
  | nil => simp
  | cons r rs ih =>
    by_cases h : f r
    · simp [List.count_cons, h, List.filter_cons, ih]
    · simp only [Bool.not_eq_true] at h
      simp [List.count_cons, h, List.filter_cons, ih]

theorem zipFilterMap_eq (t : List Row) (f : Row → Bool) (g : Row → String) :
    (((t.zip (t.map f)).filter fun rm => rm.2).map fun rm => g rm.1) = (t.filter f).map g := by
  induction t with
  | nil => simp
  | cons r rs ih =>
    simp only [List.map_cons, List.zip_cons_cons, List.filter_cons]
    by_cases h : f r
    · simp [h, ih]
    · simp only [Bool.not_eq_true] at h
      simp [h, ih]

theorem foldl_zipmap {β : Type} (t : List Row) (f : Row → Bool)
    (g : β → Bool → Row → Row) :
    ∀ (ps : List β) (h : Row → Row),
      ps.foldl (fun t2 p => (t2.zip (t.map f)).map fun rm => g p rm.2 rm.1) (t.map h)
        = t.map fun r => ps.foldl (fun r2 p => g p (f r) r2) (h r) := by
  intro ps
  induction ps with
  | nil => intro h; simp
  | cons p ps ih =>
    intro h
    simp only [List.foldl_cons]
    have hstep : (((t.map h).zip (t.map f)).map fun rm => g p rm.2 rm.1)
        = t.map fun r => g p (f r) (h r) := by
      rw [List.zip_map' h f t, List.map_map]
      rfl
    rw [hstep]
    exact ih fun r => g p (f r) (h r)

theorem applyParentRename_false (i : Nat) (nl p : String) (r : Row) :
    applyParentRename i nl p false r = r := by
  simp [applyParentRename]

theorem foldl_apr_mask_false (i : Nat) (lab : String) (ps : List (Nat × String)) (r : Row) :
    ps.foldl (fun r2 ip => applyParentRename i (dupLabel lab ip.1) ip.2 false r2) r = r := by
  induction ps generalizing r with
  | nil => rfl
  | cons p ps ih => simp [applyParentRename_false, ih]

theorem foldl_apr_noMem (i : Nat) (lab : String) (ps : List String) (r : Row)
    (h : getCell r (i - 1) ∉ ps) :
    ∀ n, (ps.enumFrom n).foldl
        (fun r2 ip => applyParentRename i (dupLabel lab ip.1) ip.2 true r2) r = r := by
  induction ps generalizing r with
  | nil => intro n; rfl
  | cons p ps ih =>
    intro n
    have hp : getCell r (i - 1) ≠ p := fun hc => h (hc ▸ List.mem_cons_self _ _)
    simp only [List.enumFrom, List.foldl_cons]
    rw [show applyParentRename i (dupLabel lab n) p true r = r from by
      unfold applyParentRename
      rw [if_neg]
      rintro ⟨-, h2⟩
      exact hp h2]
    exact ih r (fun hc => h (List.mem_cons_of_mem _ hc)) (n + 1)

theorem foldl_apr_mem (i : Nat) (hi : 1 ≤ i) (lab : String) (ups : List String) (r : Row)
    (hnd : ups.Nodup) (hq : getCell r (i - 1) ∈ ups) :
    ∀ n, (ups.enumFrom n).foldl
        (fun r2 ip => applyParentRename i (dupLabel lab ip.1) ip.2 true r2) r
      = setCell r i (dupLabel lab (n + ups.indexOf (getCell r (i - 1)))) := by
  induction ups generalizing r with
  | nil => intro n; exact absurd hq (by simp)
  | cons p ps ih =>
    intro n
    simp only [List.enumFrom, List.foldl_cons]
    by_cases hp : p = getCell r (i - 1)
    · rw [show applyParentRename i (dupLabel lab n) p true r = setCell r i (dupLabel lab n) from by
        unfold applyParentRename
        rw [if_pos ⟨rfl, hp.symm⟩]]
      have hne : (i - 1) ≠ i := by omega
      have hpar : getCell (setCell r i (dupLabel lab n)) (i - 1) = getCell r (i - 1) :=
        getCell_setCell_ne _ _ _ _ (fun hc => hne hc.symm)
      have hnotin : getCell (setCell r i (dupLabel lab n)) (i - 1) ∉ ps := by
        rw [hpar, ← hp]
        exact (List.nodup_cons.mp hnd).1
      rw [foldl_apr_noMem i lab ps _ hnotin (n + 1)]
      rw [← hp, List.indexOf_cons_self]
      simp
    · have hq2 : getCell r (i - 1) ∈ ps := by
        rcases List.mem_cons.mp hq with h1 | h1
        · exact absurd h1.symm hp
        · exact h1
      rw [show applyParentRename i (dupLabel lab n) p true r = r from by
        unfold applyParentRename
        rw [if_neg]
        rintro ⟨-, h2⟩
        exact hp h2.symm]
      rw [ih r (List.nodup_cons.mp hnd).2 hq2 (n + 1)]
      rw [List.indexOf_cons_ne _ (by exact hp)]
      have harith : n + 1 + List.indexOf (getCell r (i - 1)) ps
          = n + Nat.succ (List.indexOf (getCell r (i - 1)) ps) := by omega
      rw [harith]

theorem labelRowMap_of_ne {S : Table} {i : Nat} {lab : String} {r : Row}
    (h : getCell r i ≠ lab) : labelRowMap S i lab r = r := by
  unfold labelRowMap
  split_ifs <;> first | rfl | (exact absurd (by assumption) h)

theorem labelRowMap_cell_ne (S : Table) (i : Nat) (lab : String) (r : Row) (j : Nat)
    (hj : j ≠ i) : getCell (labelRowMap S i lab r) j = getCell r j := by
  unfold labelRowMap
  split_ifs <;> first | rfl | (exact getCell_setCell_ne _ _ _ _ fun hc => hj hc.symm)

theorem labelRowMap_length (S : Table) (i : Nat) (lab : String) (r : Row) :
    (labelRowMap S i lab r).length = r.length := by
  unfold labelRowMap
  split_ifs <;> first | rfl | (exact length_setCell _ _ _)

theorem mem_distinctParents_of_row {t : Table} {i : Nat} {lab : String} {r : Row}
    (hr : r ∈ t) (hlab : getCell r i = lab) :
    getCell r (i - 1) ∈ distinctParents t i lab := by
  rw [distinctParents, mem_uniqueKeepFirst]
  exact List.mem_map_of_mem _ (List.mem_filter.mpr ⟨hr, by simpa using hlab⟩)

theorem processLabel_eq (t : Table) (i : Nat) (lab : String) (hi : 1 ≤ i) :
    processLabel t i lab = t.map (labelRowMap t i lab) := by
  by_cases hU : lab = "Unclassified"
  · rw [processLabel, if_pos hU]
    have : ∀ r ∈ t, labelRowMap t i lab r = r := by
      intro r _
      rw [labelRowMap, if_pos hU]
    rw [List.map_congr_left this, List.map_id']
  · rw [processLabel, if_neg hU]
    simp only []
    rw [zipCount_eq t (fun r => decide (getCell r i = lab))]
    have hcnt : ((t.filter fun r => decide (getCell r i = lab)).length) = countLabel t i lab := rfl
    rw [hcnt]
    by_cases hc : countLabel t i lab = 1
    · rw [if_pos hc]
      have : ∀ r ∈ t, labelRowMap t i lab r = r := by
        intro r _
        rw [labelRowMap, if_neg hU, if_pos hc]
      rw [List.map_congr_left this, List.map_id']
    · rw [if_neg hc]
      rw [zipFilterMap_eq t (fun r => decide (getCell r i = lab)) (fun r => getCell r (i - 1))]
      have hups : uniqueKeepFirst
          ((t.filter fun r => decide (getCell r i = lab)).map fun r => getCell r (i - 1))
          = distinctParents t i lab := rfl
      rw [hups]
      by_cases hlen : 1 < (distinctParents t i lab).length
      · rw [if_pos hlen]
        have hfold := foldl_zipmap t (fun r => decide (getCell r i = lab))
          (fun (ip : Nat × String) m r2 => applyParentRename i (dupLabel lab ip.1) ip.2 m r2)
          ((distinctParents t i lab).enum) id
        rw [List.map_id] at hfold
        rw [hfold]
        apply List.map_congr_left
        intro r hr
        simp only [id]
        by_cases hm : getCell r i = lab
        · have hq : getCell r (i - 1) ∈ distinctParents t i lab :=
            mem_distinctParents_of_row hr hm
          have hnd := nodup_uniqueKeepFirst
            ((t.filter fun r => decide (getCell r i = lab)).map fun r => getCell r (i - 1))
          rw [show (decide (getCell r i = lab)) = true by simpa using hm]
          rw [List.enum]
          rw [foldl_apr_mem i hi lab (distinctParents t i lab) r hnd hq 0]
          rw [labelRowMap, if_neg hU, if_neg hc, if_pos hlen, if_pos hm]
          simp
        · rw [show (decide (getCell r i = lab)) = false by simpa using hm]
          rw [foldl_apr_mask_false]
          exact (labelRowMap_of_ne hm).symm
      · rw [if_neg hlen]
        have : ∀ r ∈ t, labelRowMap t i lab r = r := by
          intro r _
          rw [labelRowMap, if_neg hU, if_neg hc, if_neg hlen]
        rw [List.map_congr_left this, List.map_id']

/-! ## Characterization of a whole column pass -/

theorem doneRowMap_cases (S : Table) (i : Nat) (done : List String) (r : Row) :
    doneRowMap S i done r = r ∨
      (getCell r i ∈ done ∧
        ∃ idx, doneRowMap S i done r = setCell r i (dupLabel (getCell r i) idx)) := by
  unfold doneRowMap labelRowMap
  split_ifs with h1 h2 h3 h4 h5
  · exact Or.inl rfl
  · exact Or.inl rfl
  · exact Or.inr ⟨h1, _, rfl⟩
  · exact absurd rfl h5
  · exact Or.inl rfl
  · exact Or.inl rfl

theorem doneRowMap_cell_ne (S : Table) (i : Nat) (done : List String) (r : Row) (j : Nat)
    (hj : j ≠ i) : getCell (doneRowMap S i done r) j = getCell r j := by
  rcases doneRowMap_cases S i done r with h | ⟨-, idx, h⟩
  · rw [h]
  · rw [h]; exact getCell_setCell_ne _ _ _ _ fun hc => hj hc.symm

theorem doneRowMap_length (S : Table) (i : Nat) (done : List String) (r : Row) :
    (doneRowMap S i done r).length = r.length := by
  rcases doneRowMap_cases S i done r with h | ⟨-, idx, h⟩
  · rw [h]
  · rw [h]; exact length_setCell _ _ _

theorem doneRowMap_cell_i_iff {S : Table} {i : Nat} {done : List String} {r : Row} {lab : String}
    (hrlen : i < r.length) (hnt : hasDupTag lab = false) (hndone : lab ∉ done) :
    getCell (doneRowMap S i done r) i = lab ↔ getCell r i = lab := by
  rcases doneRowMap_cases S i done r with h | ⟨hmem, idx, h⟩
  · rw [h]
  · rw [h, getCell_setCell_self _ _ _ hrlen]
    constructor
    · intro hc
      exact absurd hc.symm (ne_dupLabel_of_no_tag hnt idx)
    · intro hc
      rw [hc] at hmem
      exact absurd hmem hndone

theorem countLabel_map_congr (L : List Row) (G : Row → Row) (i : Nat) (lab : String)
    (h : ∀ r ∈ L, (getCell (G r) i = lab ↔ getCell r i = lab)) :
    countLabel (L.map G) i lab = countLabel L i lab := by
  induction L with
  | nil => rfl
  | cons r rs ih =>
    have hr := h r (List.mem_cons_self _ _)
    have hrs := ih fun x hx => h x (List.mem_cons_of_mem _ hx)
    unfold countLabel at *
    simp only [List.map_cons, List.filter_cons]
    by_cases hm : getCell r i = lab
    · rw [if_pos (by simpa using hr.mpr hm), if_pos (by simpa using hm)]
      simp only [List.length_cons, hrs]
    · rw [if_neg (by simpa using fun hc => hm (hr.mp hc)), if_neg (by simpa using hm)]
      exact hrs

theorem parents_map_congr (L : List Row) (G : Row → Row) (i : Nat) (lab : String)
    (h : ∀ r ∈ L, (getCell (G r) i = lab ↔ getCell r i = lab)
      ∧ getCell (G r) (i - 1) = getCell r (i - 1)) :
    (((L.map G).filter fun r => decide (getCell r i = lab)).map fun r => getCell r (i - 1))
      = ((L.filter fun r => decide (getCell r i = lab)).map fun r => getCell r (i - 1)) := by
  induction L with
  | nil => rfl
  | cons r rs ih =>
    have hr := h r (List.mem_cons_self _ _)
    have hrs := ih fun x hx => h x (List.mem_cons_of_mem _ hx)
    simp only [List.map_cons, List.filter_cons]
    by_cases hm : getCell r i = lab
    · rw [if_pos (by simpa using hr.1.mpr hm), if_pos (by simpa using hm)]
      simp only [List.map_cons, hrs, hr.2]
    · rw [if_neg (by simpa using fun hc => hm (hr.1.mp hc)), if_neg (by simpa using hm)]
      exact hrs

theorem distinctParents_map_congr (L : List Row) (G : Row → Row) (i : Nat) (lab : String)
    (h : ∀ r ∈ L, (getCell (G r) i = lab ↔ getCell r i = lab)
      ∧ getCell (G r) (i - 1) = getCell r (i - 1)) :
    distinctParents (L.map G) i lab = distinctParents L i lab := by
  unfold distinctParents
  rw [parents_map_congr L G i lab h]

theorem foldl_processLabel_done (S : Table) (i : Nat) (hi : 1 ≤ i)
    (hrect : ∀ r ∈ S, i < r.length) :
    ∀ (labs done : List String), (done ++ labs).Nodup →
      (∀ l ∈ labs, hasDupTag l = false) →
      labs.foldl (fun t2 lab => processLabel t2 i lab) (S.map (doneRowMap S i done))
        = S.map (doneRowMap S i (done ++ labs)) := by
  intro labs
  induction labs with
  | nil => intro done h1 h2; simp
  | cons lab labs ih =>
    intro done hnd hnt
    simp only [List.foldl_cons]
    have hlabnt : hasDupTag lab = false := hnt lab (List.mem_cons_self _ _)
    have hlabdone : lab ∉ done := by
      intro hc
      exact (List.disjoint_of_nodup_append hnd) hc (List.mem_cons_self _ _)
    have hGiff : ∀ r ∈ S, (getCell (doneRowMap S i done r) i = lab ↔ getCell r i = lab) :=
      fun r hr => doneRowMap_cell_i_iff (hrect r hr) hlabnt hlabdone
    have hGfacts : ∀ r ∈ S, (getCell (doneRowMap S i done r) i = lab ↔ getCell r i = lab)
        ∧ getCell (doneRowMap S i done r) (i - 1) = getCell r (i - 1) :=
      fun r hr => ⟨hGiff r hr, doneRowMap_cell_ne S i done r (i - 1) (by omega)⟩
    have hcnt := countLabel_map_congr S (doneRowMap S i done) i lab hGiff
    have hpar := distinctParents_map_congr S (doneRowMap S i done) i lab hGfacts
    have hstep : processLabel (S.map (doneRowMap S i done)) i lab
        = S.map (doneRowMap S i (done ++ [lab])) := by
      rw [processLabel_eq _ _ _ hi, List.map_map]
      apply List.map_congr_left
      intro r hr
      simp only [Function.comp]
      by_cases hm : getCell r i = lab
      · have hGr : doneRowMap S i done r = r := by
          unfold doneRowMap
          rw [if_neg (by rw [hm]; exact hlabdone)]
        rw [hGr]
        have hLRM : labelRowMap (S.map (doneRowMap S i done)) i lab r
            = labelRowMap S i lab r := by
          unfold labelRowMap
          rw [hcnt, hpar]
        rw [hLRM]
        unfold doneRowMap
        rw [if_pos (by rw [hm]; exact List.mem_append_right _ (List.mem_cons_self _ _)), hm]
      · have hne2 : getCell (doneRowMap S i done r) i ≠ lab :=
          fun hc => hm ((hGiff r hr).mp hc)
        rw [labelRowMap_of_ne hne2]
        unfold doneRowMap
        by_cases hmem : getCell r i ∈ done
        · rw [if_pos hmem, if_pos (List.mem_append_left _ hmem)]
        · rw [if_neg hmem, if_neg ?hneg]
          case hneg =>
            intro hc
            rcases List.mem_append.mp hc with h1 | h1
            · exact hmem h1
            · rcases List.mem_cons.mp h1 with h2 | h2
              · exact hm h2
              · simp at h2
    rw [hstep]
    have hnd2 : ((done ++ [lab]) ++ labs).Nodup := by
      rw [List.append_assoc]
      exact hnd
    have hres := ih (done ++ [lab]) hnd2 fun l hl => hnt l (List.mem_cons_of_mem _ hl)
    rw [hres, List.append_assoc]
    rfl

theorem processColumn_char (S : Table) (i : Nat) (hi : 1 ≤ i)
    (hrect : ∀ r ∈ S, i < r.length)
    (hnt : ∀ r ∈ S, hasDupTag (getCell r i) = false) :
    processColumn S i = S.map (colRowMap S i) := by
  unfold processColumn
  have h0 : S = S.map (doneRowMap S i []) := by
    have : ∀ r ∈ S, doneRowMap S i [] r = r := by
      intro r _
      unfold doneRowMap
      rw [if_neg (by simp)]
    rw [List.map_congr_left this, List.map_id']
  have hfold := foldl_processLabel_done S i hi hrect (uniqueKeepFirst (S.map fun r => getCell r i)) []
    (by simpa using nodup_uniqueKeepFirst _)
    (by
      intro l hl
      rw [mem_uniqueKeepFirst] at hl
      rcases List.mem_map.mp hl with ⟨r, hr, hrl⟩
      rw [← hrl]
      exact hnt r hr)
  rw [← h0] at hfold
  rw [hfold]
  apply List.map_congr_left
  intro r hr
  unfold doneRowMap colRowMap
  rw [if_pos]
  simp only [List.nil_append]
  rw [mem_uniqueKeepFirst]
  exact List.mem_map_of_mem _ hr

/-! ## The strict-hierarchy invariant after one column pass -/

theorem colRowMap_cell_i_cases (S : Table) (i : Nat) (r : Row) :
    (colRowMap S i r = r ∧
      (getCell r i = "Unclassified" ∨ countLabel S i (getCell r i) = 1 ∨
        ¬ 1 < (distinctParents S i (getCell r i)).length))
    ∨ (getCell r i ≠ "Unclassified" ∧ countLabel S i (getCell r i) ≠ 1 ∧
        1 < (distinctParents S i (getCell r i)).length ∧
        colRowMap S i r = setCell r i (dupLabel (getCell r i)
          ((distinctParents S i (getCell r i)).indexOf (getCell r (i - 1))))) := by
  unfold colRowMap labelRowMap
  split_ifs with h1 h2 h3 h4
  · exact Or.inl ⟨rfl, Or.inl h1⟩
  · exact Or.inl ⟨rfl, Or.inr (Or.inl h2)⟩
  · exact Or.inr ⟨h1, h2, h3, rfl⟩
  · exact absurd rfl h4
  · exact Or.inl ⟨rfl, Or.inr (Or.inr h3)⟩

theorem eq_of_mem_length_one {α : Type} {l : List α} (h : l.length = 1) {a b : α}
    (ha : a ∈ l) (hb : b ∈ l) : a = b := by
  rcases l with _ | ⟨x, _ | ⟨y, ys⟩⟩
  · simp at ha
  · rw [List.mem_singleton] at ha hb
    rw [ha, hb]
  · simp at h

theorem mem_parents_of_row {t : Table} {i : Nat} {lab : String} {r : Row}
    (hr : r ∈ t) (hlab : getCell r i = lab) :
    getCell r (i - 1) ∈ ((t.filter fun x => decide (getCell x i = lab)).map
      fun x => getCell x (i - 1)) :=
  List.mem_map_of_mem _ (List.mem_filter.mpr ⟨hr, by simpa using hlab⟩)

theorem processColumn_inv_mem (S : Table) (i : Nat) (hi : 1 ≤ i)
    (hrect : ∀ r ∈ S, i < r.length)
    (hnt : ∀ r ∈ S, hasDupTag (getCell r i) = false) :
    ∀ r1 ∈ S, ∀ r2 ∈ S,
      getCell (colRowMap S i r1) i = getCell (colRowMap S i r2) i →
      getCell (colRowMap S i r1) i ≠ "Unclassified" →
      getCell (colRowMap S i r1) (i - 1) = getCell (colRowMap S i r2) (i - 1) := by
  intro r1 hr1 r2 hr2 heq hne
  have hii : (i - 1) ≠ i := by omega
  have hpar1 : getCell (colRowMap S i r1) (i - 1) = getCell r1 (i - 1) :=
    labelRowMap_cell_ne _ _ _ _ _ hii
  have hpar2 : getCell (colRowMap S i r2) (i - 1) = getCell r2 (i - 1) :=
    labelRowMap_cell_ne _ _ _ _ _ hii
  rw [hpar1, hpar2]
  rcases colRowMap_cell_i_cases S i r1 with ⟨he1, hc1⟩ | ⟨hu1, hc1, hl1, he1⟩ <;>
    rcases colRowMap_cell_i_cases S i r2 with ⟨he2, hc2⟩ | ⟨hu2, hc2, hl2, he2⟩
  · -- both rows kept their original labels
    rw [he1] at heq hne
    rw [he2] at heq
    rcases hc1 with hU | hcnt | hlen
    · exact absurd hU hne
    · have hm1 : r1 ∈ S.filter fun x => decide (getCell x i = getCell r1 i) :=
        List.mem_filter.mpr ⟨hr1, by simp⟩
      have hm2 : r2 ∈ S.filter fun x => decide (getCell x i = getCell r1 i) :=
        List.mem_filter.mpr ⟨hr2, by simpa using heq.symm⟩
      have h12 : r1 = r2 := eq_of_mem_length_one hcnt hm1 hm2
      rw [h12]
    · have hall := all_eq_of_uniqueKeepFirst_len_le_one (l :=
        ((S.filter fun x => decide (getCell x i = getCell r1 i)).map
          fun x => getCell x (i - 1))) (by
            rw [distinctParents] at hlen
            omega)
      exact hall _ (mem_parents_of_row hr1 rfl) _ (mem_parents_of_row hr2 heq.symm)
  · -- r1 kept, r2 renamed: impossible since r1's label has no tag
    rw [he1] at heq hne
    rw [he2, getCell_setCell_self _ _ _ (hrect r2 hr2)] at heq
    exact absurd heq (ne_dupLabel_of_no_tag (hnt r1 hr1) _)
  · -- r2 kept, r1 renamed: impossible since r2's label has no tag
    rw [he2] at heq
    rw [he1, getCell_setCell_self _ _ _ (hrect r1 hr1)] at heq
    exact absurd heq.symm (ne_dupLabel_of_no_tag (hnt r2 hr2) _)
  · -- both renamed
    rw [he1, getCell_setCell_self _ _ _ (hrect r1 hr1)] at heq
    rw [he2, getCell_setCell_self _ _ _ (hrect r2 hr2)] at heq
    rcases dupLabel_inj (hnt r1 hr1) (hnt r2 hr2) heq with ⟨hlab, hidx⟩
    rw [← hlab] at hidx
    have hq1 : getCell r1 (i - 1) ∈ distinctParents S i (getCell r1 i) :=
      mem_distinctParents_of_row hr1 rfl
    have hq2 : getCell r2 (i - 1) ∈ distinctParents S i (getCell r1 i) :=
      mem_distinctParents_of_row hr2 hlab.symm
    exact (List.indexOf_inj hq1 hq2).mp hidx

/-! ## Index-level helpers and stability of the enforcer passes -/

theorem getD_lt {l : Table} {k : Nat} (hk : k < l.length) : l.getD k [] = l[k] := by
  rw [List.getD_eq_getElem?_getD, List.getElem?_eq_getElem hk]
  rfl

theorem getD_mem {l : Table} {k : Nat} (hk : k < l.length) : l.getD k [] ∈ l := by
  rw [getD_lt hk]
  exact List.getElem_mem hk

theorem getD_map_lt {f : Row → Row} {S : Table} {k : Nat} (hk : k < S.length) :
    (S.map f).getD k [] = f (S.getD k []) := by
  have hk2 : k < (S.map f).length := by simpa using hk
  rw [getD_lt hk2, getD_lt hk, List.getElem_map]

theorem getD_ge {l : Table} {k : Nat} (hk : l.length ≤ k) : l.getD k [] = [] := by
  rw [List.getD_eq_getElem?_getD, List.getElem?_eq_none hk]
  rfl

theorem processLabel_length (t : Table) (i : Nat) (lab : String) (hi : 1 ≤ i) :
    (processLabel t i lab).length = t.length := by
  rw [processLabel_eq _ _ _ hi, List.length_map]

theorem processLabel_cell_ne (t : Table) (i : Nat) (lab : String) (hi : 1 ≤ i)
    (k j : Nat) (hj : j ≠ i) : cellAt (processLabel t i lab) k j = cellAt t k j := by
  rw [processLabel_eq _ _ _ hi]
  by_cases hk : k < t.length
  · rw [cellAt, cellAt, getD_map_lt hk]
    exact labelRowMap_cell_ne _ _ _ _ _ hj
  · push_neg at hk
    rw [cellAt, cellAt, getD_ge (by simpa using hk), getD_ge hk]

theorem foldl_processLabel_cell_ne (i : Nat) (hi : 1 ≤ i) (k j : Nat) (hj : j ≠ i) :
    ∀ (labs : List String) (t : Table),
      cellAt (labs.foldl (fun t2 lab => processLabel t2 i lab) t) k j = cellAt t k j := by
  intro labs
  induction labs with
  | nil => intro t; rfl
  | cons lab labs ih =>
    intro t
    simp only [List.foldl_cons]
    rw [ih (processLabel t i lab), processLabel_cell_ne t i lab hi k j hj]

theorem processColumn_cell_ne (t : Table) (i : Nat) (hi : 1 ≤ i) (k j : Nat) (hj : j ≠ i) :
    cellAt (processColumn t i) k j = cellAt t k j :=
  foldl_processLabel_cell_ne i hi k j hj _ t

theorem foldl_processLabel_length (i : Nat) (hi : 1 ≤ i) :
    ∀ (labs : List String) (t : Table),
      (labs.foldl (fun t2 lab => processLabel t2 i lab) t).length = t.length := by
  intro labs
  induction labs with
  | nil => intro t; rfl
  | cons lab labs ih =>
    intro t
    simp only [List.foldl_cons]
    rw [ih (processLabel t i lab), processLabel_length t i lab hi]

theorem processColumn_length (t : Table) (i : Nat) (hi : 1 ≤ i) :
    (processColumn t i).length = t.length :=
  foldl_processLabel_length i hi _ t

theorem foldl_processLabel_rect (i n : Nat) (hi : 1 ≤ i) :
    ∀ (labs : List String) (t : Table), RectGe t n →
      RectGe (labs.foldl (fun t2 lab => processLabel t2 i lab) t) n := by
  intro labs
  induction labs with
  | nil => intro t h; exact h
  | cons lab labs ih =>
    intro t h
    simp only [List.foldl_cons]
    apply ih
    intro r hr
    rw [processLabel_eq _ _ _ hi] at hr
    rcases List.mem_map.mp hr with ⟨r0, hr0, hrr⟩
    rw [← hrr, labelRowMap_length]
    exact h r0 hr0

theorem processColumn_rect (t : Table) (i n : Nat) (hi : 1 ≤ i) (h : RectGe t n) :
    RectGe (processColumn t i) n :=
  foldl_processLabel_rect i n hi _ t h

/-! ## The enforcer as iterated column passes -/

theorem force_zero (t : Table) : force_strict_spf_hierarchy t 0 = t := rfl

theorem force_succ (t : Table) (n : Nat) :
    force_strict_spf_hierarchy t (n + 1)
      = if n = 0 then force_strict_spf_hierarchy t n
        else processColumn (force_strict_spf_hierarchy t n) n := by
  unfold force_strict_spf_hierarchy
  rw [List.range_succ, List.foldl_append]
  rfl

theorem force_length (t : Table) (m : Nat) :
    (force_strict_spf_hierarchy t m).length = t.length := by
  induction m with
  | zero => rfl
  | succ n ih =>
    rw [force_succ]
    by_cases h : n = 0
    · rw [if_pos h, ih]
    · rw [if_neg h, processColumn_length _ _ (by omega), ih]

theorem force_rect (t : Table) (m n : Nat) (h : RectGe t n) :
    RectGe (force_strict_spf_hierarchy t m) n := by
  induction m with
  | zero => exact h
  | succ k ih =>
    rw [force_succ]
    by_cases hk : k = 0
    · rw [if_pos hk]; exact ih
    · rw [if_neg hk]; exact processColumn_rect _ _ _ (by omega) ih

theorem force_cell_high (t : Table) (m k j : Nat) (hj : m ≤ j) :
    cellAt (force_strict_spf_hierarchy t m) k j = cellAt t k j := by
  induction m with
  | zero => rfl
  | succ n ih =>
    rw [force_succ]
    by_cases h : n = 0
    · rw [if_pos h]; exact ih (by omega)
    · rw [if_neg h, processColumn_cell_ne _ _ (by omega) _ _ (by omega)]
      exact ih (by omega)

theorem force_cell_low (t : Table) (i : Nat) (h1 : 1 ≤ i) :
    ∀ (m : Nat), i < m → ∀ (k j : Nat), j ≤ i →
      cellAt (force_strict_spf_hierarchy t m) k j
        = cellAt (force_strict_spf_hierarchy t (i + 1)) k j := by
  intro m
  induction m with
  | zero => intro h; omega
  | succ n ih =>
    intro him k j hj
    by_cases hin : i = n
    · rw [hin]
    · have hlt : i < n := by omega
      rw [force_succ, if_neg (by omega), processColumn_cell_ne _ _ (by omega) _ _ (by omega)]
      exact ih hlt k j hj

theorem processColumn_inv (S : Table) (i : Nat) (hi : 1 ≤ i)
    (hrect : ∀ r ∈ S, i < r.length)
    (hnt : ∀ r ∈ S, hasDupTag (getCell r i) = false) :
    InvCol (processColumn S i) i := by
  rw [processColumn_char S i hi hrect hnt]
  intro k1 k2 hk1 hk2 heq hne
  rw [List.length_map] at hk1 hk2
  rw [cellAt, cellAt, getD_map_lt hk1, getD_map_lt hk2]
  rw [cellAt, cellAt, getD_map_lt hk1, getD_map_lt hk2] at heq
  rw [cellAt, getD_map_lt hk1] at hne
  exact processColumn_inv_mem S i hi hrect hnt _ (getD_mem hk1) _ (getD_mem hk2) heq hne

theorem force_inv (T : Table) (cc : Nat) (hrect : RectGe T cc)
    (hnt : ∀ k, k < T.length → ∀ i, 1 ≤ i → i < cc → hasDupTag (cellAt T k i) = false) :
    ∀ i, 1 ≤ i → i < cc → InvCol (force_strict_spf_hierarchy T cc) i := by
  intro i h1 h2
  have hstep : force_strict_spf_hierarchy T (i + 1)
      = processColumn (force_strict_spf_hierarchy T i) i := by
    rw [force_succ, if_neg (by omega)]
  have hSrect : ∀ r ∈ force_strict_spf_hierarchy T i, i < r.length := by
    intro r hr
    have := force_rect T i cc hrect r hr
    omega
  have hSnt : ∀ r ∈ force_strict_spf_hierarchy T i, hasDupTag (getCell r i) = false := by
    intro r hr
    rcases List.mem_iff_getElem.mp hr with ⟨k, hk, hkr⟩
    have hcell : getCell r i = cellAt (force_strict_spf_hierarchy T i) k i := by
      rw [cellAt, getD_lt hk, hkr]
    rw [hcell, force_cell_high T i k i le_rfl]
    have hkT : k < T.length := by
      rw [force_length] at hk
      exact hk
    exact hnt k hkT i h1 h2
  have hinv1 : InvCol (force_strict_spf_hierarchy T (i + 1)) i := by
    rw [hstep]
    exact processColumn_inv _ i h1 hSrect hSnt
  intro k1 k2 hk1 hk2 heq hne
  have hlow := force_cell_low T i h1 cc h2
  rw [hlow k1 i le_rfl, hlow k2 i le_rfl] at heq
  rw [hlow k1 i le_rfl] at hne
  rw [hlow k1 (i - 1) (by omega), hlow k2 (i - 1) (by omega)]
  have hlen : (force_strict_spf_hierarchy T cc).length
      = (force_strict_spf_hierarchy T (i + 1)).length := by
    rw [force_length, force_length]
  rw [hlen] at hk1 hk2
  exact hinv1 k1 k2 hk1 hk2 heq hne

/-! ## Identity of the enforcer on tables satisfying the invariant -/

theorem invCol_mem {t : Table} {i : Nat} (hinv : InvCol t i) {r1 r2 : Row}
    (h1 : r1 ∈ t) (h2 : r2 ∈ t) (heq : getCell r1 i = getCell r2 i)
    (hne : getCell r1 i ≠ "Unclassified") : getCell r1 (i - 1) = getCell r2 (i - 1) := by
  rcases List.mem_iff_getElem.mp h1 with ⟨k1, hk1, e1⟩
  rcases List.mem_iff_getElem.mp h2 with ⟨k2, hk2, e2⟩
  have hres := hinv k1 k2 hk1 hk2
    (by rw [cellAt, getD_lt hk1, e1, cellAt, getD_lt hk2, e2]; exact heq)
    (by rw [cellAt, getD_lt hk1, e1]; exact hne)
  rw [cellAt, getD_lt hk1, e1, cellAt, getD_lt hk2, e2] at hres
  exact hres

theorem processLabel_id_of_inv (t : Table) (i : Nat) (hi : 1 ≤ i) (hinv : InvCol t i)
    (lab : String) : processLabel t i lab = t := by
  rw [processLabel_eq _ _ _ hi]
  have hpt : ∀ r ∈ t, labelRowMap t i lab r = r := by
    intro r hr
    by_cases hm : getCell r i = lab
    · unfold labelRowMap
      split_ifs with h1 h2 h3 h4
      · rfl
      · rfl
      · exfalso
        have hall : ∀ x ∈ ((t.filter fun x => decide (getCell x i = lab)).map
            fun x => getCell x (i - 1)), x = getCell r (i - 1) := by
          intro x hx
          rcases List.mem_map.mp hx with ⟨r2, hr2f, hx2⟩
          rcases List.mem_filter.mp hr2f with ⟨hr2, hr2lab⟩
          have hr2lab2 : getCell r2 i = lab := by simpa using hr2lab
          rw [← hx2]
          exact invCol_mem hinv hr2 hr (by rw [hr2lab2, hm]) (by rw [hr2lab2]; exact h1)
        have hne0 : ((t.filter fun x => decide (getCell x i = lab)).map
            fun x => getCell x (i - 1)) ≠ [] :=
          List.ne_nil_of_mem (mem_parents_of_row hr hm)
        have hsing := uniqueKeepFirst_singleton_of_all_eq hne0 hall
        rw [distinctParents, hsing] at h3
        simp at h3
      · rfl
    · exact labelRowMap_of_ne hm
  rw [List.map_congr_left hpt, List.map_id']

theorem processColumn_id_of_inv (t : Table) (i : Nat) (hi : 1 ≤ i) (hinv : InvCol t i) :
    processColumn t i = t := by
  unfold processColumn
  generalize (uniqueKeepFirst (t.map fun r => getCell r i)) = labs
  induction labs with
  | nil => rfl
  | cons l ls ih =>
    simp only [List.foldl_cons]
    rw [processLabel_id_of_inv t i hi hinv l]
    exact ih

theorem force_id_of_inv (t : Table) (cc : Nat)
    (hinv : ∀ i, 1 ≤ i → i < cc → InvCol t i) : force_strict_spf_hierarchy t cc = t := by
  induction cc with
  | zero => rfl
  | succ n ih =>
    rw [force_succ]
    by_cases hn : n = 0
    · rw [if_pos hn]
      exact ih fun i hi1 hi2 => hinv i hi1 (by omega)
    · rw [if_neg hn, ih fun i hi1 hi2 => hinv i hi1 (by omega)]
      exact processColumn_id_of_inv t n (by omega) (hinv n (by omega) (by omega))

/-! ## Gap filler: index classification and fold lemmas -/

theorem getCell_append_left {l1 l2 : List String} {j : Nat} (hj : j < l1.length) :
    getCell (l1 ++ l2) j = getCell l1 j := by
  rw [getCell, getCell, List.getD_eq_getElem?_getD, List.getD_eq_getElem?_getD,
    List.getElem?_append_left hj]

theorem getCell_append_right {l1 l2 : List String} {j : Nat} (hj : l1.length ≤ j) :
    getCell (l1 ++ l2) j = getCell l2 (j - l1.length) := by
  rw [getCell, getCell, List.getD_eq_getElem?_getD, List.getD_eq_getElem?_getD,
    List.getElem?_append_right hj]

theorem getCell_take {r : List String} {m j : Nat} (hj : j < m) :
    getCell (r.take m) j = getCell r j := by
  rw [getCell, getCell, List.getD_eq_getElem?_getD, List.getD_eq_getElem?_getD,
    List.getElem?_take_of_lt hj]

theorem mem_classifyIdx_fst :
    ∀ (l : List String) (n m : Nat),
      m ∈ (classifyIdx n l).1 ↔ n ≤ m ∧ m - n < l.length ∧ getCell l (m - n) = "Unclassified" := by
  intro l
  induction l with
  | nil => intro n m; simp [classifyIdx]
  | cons t ts ih =>
    intro n m
    by_cases ht : t = "Unclassified"
    · rw [classifyIdx, if_pos ht]
      simp only [List.mem_cons, ih]
      constructor
      · rintro (rfl | ⟨h1, h2, h3⟩)
        · refine ⟨le_rfl, by simp, ?_⟩
          simpa [getCell] using ht
        · refine ⟨by omega, by simp; omega, ?_⟩
          have hmn : m - n = (m - (n + 1)) + 1 := by omega
          rw [hmn]
          simpa [getCell] using h3
      · rintro ⟨h1, h2, h3⟩
        by_cases hm : m = n
        · exact Or.inl hm
        · refine Or.inr ⟨by omega, by simp at h2; omega, ?_⟩
          have hmn : m - n = (m - (n + 1)) + 1 := by omega
          rw [hmn] at h3
          simpa [getCell] using h3
    · rw [classifyIdx, if_neg ht]
      rw [ih]
      constructor
      · rintro ⟨h1, h2, h3⟩
        refine ⟨by omega, by simp; omega, ?_⟩
        have hmn : m - n = (m - (n + 1)) + 1 := by omega
        rw [hmn]
        simpa [getCell] using h3
      · rintro ⟨h1, h2, h3⟩
        by_cases hm : m = n
        · subst hm
          simp only [Nat.sub_self] at h3
          exact absurd (by simpa [getCell] using h3) ht
        · refine ⟨by omega, by simp at h2; omega, ?_⟩
          have hmn : m - n = (m - (n + 1)) + 1 := by omega
          rw [hmn] at h3
          simpa [getCell] using h3

theorem mem_classifyIdx_snd :
    ∀ (l : List String) (n m : Nat),
      m ∈ (classifyIdx n l).2 ↔ n ≤ m ∧ m - n < l.length ∧ getCell l (m - n) ≠ "Unclassified" := by
  intro l
  induction l with
  | nil => intro n m; simp [classifyIdx]
  | cons t ts ih =>
    intro n m
    by_cases ht : t = "Unclassified"
    · rw [classifyIdx, if_pos ht]
      rw [ih]
      constructor
      · rintro ⟨h1, h2, h3⟩
        refine ⟨by omega, by simp; omega, ?_⟩
        have hmn : m - n = (m - (n + 1)) + 1 := by omega
        rw [hmn]
        simpa [getCell] using h3
      · rintro ⟨h1, h2, h3⟩
        by_cases hm : m = n
        · subst hm
          simp only [Nat.sub_self] at h3
          exact absurd ht (by simpa [getCell] using h3)
        · refine ⟨by omega, by simp at h2; omega, ?_⟩
          have hmn : m - n = (m - (n + 1)) + 1 := by omega
          rw [hmn] at h3
          simpa [getCell] using h3
    · rw [classifyIdx, if_neg ht]
      simp only [List.mem_cons, ih]
      constructor
      · rintro (rfl | ⟨h1, h2, h3⟩)
        · refine ⟨le_rfl, by simp, ?_⟩
          simpa [getCell] using ht
        · refine ⟨by omega, by simp; omega, ?_⟩
          have hmn : m - n = (m - (n + 1)) + 1 := by omega
          rw [hmn]
          simpa [getCell] using h3
      · rintro ⟨h1, h2, h3⟩
        by_cases hm : m = n
        · exact Or.inl hm
        · refine Or.inr ⟨by omega, by simp at h2; omega, ?_⟩
          have hmn : m - n = (m - (n + 1)) + 1 := by omega
          rw [hmn] at h3
          simpa [getCell] using h3

theorem classifyIdx_fst_lb : ∀ (l : List String) (n : Nat), ∀ m ∈ (classifyIdx n l).1, n ≤ m := by
  intro l n m hm
  exact ((mem_classifyIdx_fst l n m).mp hm).1

theorem classifyIdx_fst_nodup : ∀ (l : List String) (n : Nat), (classifyIdx n l).1.Nodup := by
  intro l
  induction l with
  | nil => intro n; simp [classifyIdx]
  | cons t ts ih =>
    intro n
    by_cases ht : t = "Unclassified"
    · rw [classifyIdx, if_pos ht]
      refine List.nodup_cons.mpr ⟨fun hc => ?_, ih (n + 1)⟩
      have := classifyIdx_fst_lb ts (n + 1) n hc
      omega
    · rw [classifyIdx, if_neg ht]
      exact ih (n + 1)

theorem pyMin_le_of_mem : ∀ (l : List Nat) (x : Nat), x ∈ l → pyMin l ≤ x := by
  have haux : ∀ (as : List Nat) (a x : Nat), (x = a ∨ x ∈ as) → as.foldl Nat.min a ≤ x := by
    intro as
    induction as with
    | nil =>
      intro a x h
      rcases h with rfl | h
      · exact le_rfl
      · simp at h
    | cons b bs ih =>
      intro a x h
      simp only [List.foldl_cons]
      rcases h with h1 | h2
      · rw [h1]
        exact le_trans (ih _ _ (Or.inl rfl)) (Nat.min_le_left a b)
      · rcases List.mem_cons.mp h2 with h3 | h4
        · rw [h3]
          exact le_trans (ih _ _ (Or.inl rfl)) (Nat.min_le_right a b)
        · exact ih _ x (Or.inr h4)
  intro l x hx
  cases l with
  | nil => simp at hx
  | cons a as =>
    rcases List.mem_cons.mp hx with rfl | h
    · exact haux as x x (Or.inl rfl)
    · exact haux as a x (Or.inr h)

theorem fillWalk_length (cl : List Nat) (u : Nat) :
    ∀ (current steps : Nat) (tx : List String), (fillWalk cl u current steps tx).length = tx.length := by
  intro current
  induction current with
  | zero => intro steps tx; rfl
  | succ c ih =>
    intro steps tx
    rw [fillWalk]
    split_ifs
    · exact ih (steps + 1) tx
    · exact length_setCell _ _ _

theorem fillWalk_cell_other (cl : List Nat) (u : Nat) (j : Nat) (hj : j ≠ u) :
    ∀ (current steps : Nat) (tx : List String),
      getCell (fillWalk cl u current steps tx) j = getCell tx j := by
  intro current
  induction current with
  | zero => intro steps tx; rfl
  | succ c ih =>
    intro steps tx
    rw [fillWalk]
    split_ifs
    · exact ih (steps + 1) tx
    · exact getCell_setCell_ne _ _ _ _ fun hc => hj hc.symm

theorem fillWalk_spec (cl : List Nat) (taxa0 : List String) (u : Nat) :
    ∀ (current steps : Nat) (tx : List String),
      (∀ j ∈ cl, getCell tx j = getCell taxa0 j) →
      (∀ j ∈ cl, getCell taxa0 j ≠ "Unclassified") →
      (∃ c, c ∈ cl ∧ c < current) →
      ∃ c, c ∈ cl ∧ c < current ∧ (∀ j, c < j → j < current → j ∉ cl) ∧
        fillWalk cl u current steps tx
          = setCell tx u (getCell taxa0 c ++ "_" ++ xRepeat (steps + (current - 1 - c))) := by
  intro current
  induction current with
  | zero =>
    intro steps tx hcl hncl hex
    rcases hex with ⟨c, -, hc⟩
    omega
  | succ cc ih =>
    intro steps tx hcl hncl hex
    by_cases hmem : cc ∈ cl
    · refine ⟨cc, hmem, by omega, by omega, ?_⟩
      rw [fillWalk, if_neg, hcl cc hmem]
      · have : steps + (cc + 1 - 1 - cc) = steps := by omega
        rw [this]
      · rw [hcl cc hmem]
        push_neg
        exact ⟨hncl cc hmem, hmem⟩
    · have hex2 : ∃ c, c ∈ cl ∧ c < cc := by
        rcases hex with ⟨c, hc1, hc2⟩
        refine ⟨c, hc1, ?_⟩
        rcases Nat.lt_succ_iff_lt_or_eq.mp hc2 with h | h
        · exact h
        · rw [h] at hc1; exact absurd hc1 hmem
      rcases ih (steps + 1) tx hcl hncl hex2 with ⟨c, hc1, hc2, hgap, hres⟩
      refine ⟨c, hc1, by omega, ?_, ?_⟩
      · intro j hj1 hj2
        rcases Nat.lt_succ_iff_lt_or_eq.mp hj2 with h | h
        · exact hgap j hj1 h
        · rw [h]; exact hmem
      · rw [fillWalk, if_pos (Or.inr hmem), hres]
        have : steps + 1 + (cc - 1 - c) = steps + (cc + 1 - 1 - c) := by omega
        rw [this]

theorem fillFold_cell_other (cl : List Nat) (M : Nat) (j : Nat) :
    ∀ (us : List Nat) (tx : List String), j ∉ us →
      getCell (us.foldl (fun tx2 u => if u < M then fillWalk cl u u 1 tx2 else tx2) tx) j
        = getCell tx j := by
  intro us
  induction us with
  | nil => intro tx _; rfl
  | cons u us ih =>
    intro tx hj
    simp only [List.foldl_cons]
    have hju : j ≠ u := fun hc => hj (hc ▸ List.mem_cons_self _ _)
    rw [ih _ fun hc => hj (List.mem_cons_of_mem _ hc)]
    split_ifs
    · exact fillWalk_cell_other cl u j hju u 1 tx
    · rfl

theorem fillFold_cl_cells (cl : List Nat) (M : Nat) (j : Nat) (hj : j ∈ cl) :
    ∀ (us : List Nat) (tx : List String), (∀ x ∈ us, x ∉ cl) →
      getCell (us.foldl (fun tx2 u => if u < M then fillWalk cl u u 1 tx2 else tx2) tx) j
        = getCell tx j := by
  intro us
  induction us with
  | nil => intro tx _; rfl
  | cons u us ih =>
    intro tx hdis
    simp only [List.foldl_cons]
    have hju : j ≠ u := fun hc => (hdis u (List.mem_cons_self _ _)) (hc ▸ hj)
    rw [ih _ fun x hx => hdis x (List.mem_cons_of_mem _ hx)]
    split_ifs
    · exact fillWalk_cell_other cl u j hju u 1 tx
    · rfl

theorem fillFold_length (cl : List Nat) (M : Nat) :
    ∀ (us : List Nat) (tx : List String),
      (us.foldl (fun tx2 u => if u < M then fillWalk cl u u 1 tx2 else tx2) tx).length
        = tx.length := by
  intro us
  induction us with
  | nil => intro tx; rfl
  | cons u us ih =>
    intro tx
    simp only [List.foldl_cons]
    rw [ih]
    split_ifs
    · exact fillWalk_length cl u u 1 tx
    · rfl

theorem mapExceptRows_ok {f : Row → Except PyErr Row} :
    ∀ {t u : Table}, mapExceptRows f t = .ok u →
      u.length = t.length ∧ ∀ k, k < t.length → f (t.getD k []) = .ok (u.getD k []) := by
  intro t
  induction t with
  | nil =>
    intro u h
    simp only [mapExceptRows] at h
    injection h with h2
    subst h2
    exact ⟨rfl, fun k hk => by simp at hk⟩
  | cons r rs ih =>
    intro u h
    simp only [mapExceptRows] at h
    cases hfr : f r with
    | error e =>
      simp only [hfr] at h
      simp at h
    | ok r2 =>
      simp only [hfr] at h
      cases hrs : mapExceptRows f rs with
      | error e =>
        simp only [hrs] at h
        simp at h
      | ok rs2 =>
        simp only [hrs] at h
        injection h with h2
        subst h2
        rcases ih hrs with ⟨hlen, hget⟩
        refine ⟨by simp [hlen], ?_⟩
        intro k hk
        cases k with
        | zero => simpa using hfr
        | succ k2 =>
          simp only [List.getD_cons_succ]
          exact hget k2 (by simpa using hk)

theorem processRowTaxa_fill (taxa : List String) (u : Nat)
    (h0 : getCell taxa 0 ≠ "Unclassified")
    (hu : getCell taxa u = "Unclassified") (hulen : u < taxa.length)
    (hmax : u < pyMax (classifyIdx 0 taxa).2) :
    ∃ out, processRowTaxa taxa = .ok out ∧ out.length = taxa.length ∧
      ∃ c, c ∈ (classifyIdx 0 taxa).2 ∧ c < u ∧
        (∀ j, c < j → j < u → j ∉ (classifyIdx 0 taxa).2) ∧
        getCell out u = getCell taxa c ++ "_" ++ xRepeat (u - c) := by
  have humem : u ∈ (classifyIdx 0 taxa).1 :=
    (mem_classifyIdx_fst taxa 0 u).mpr ⟨Nat.zero_le u, by simpa using hulen, by simpa using hu⟩
  have hune : u ≠ 0 := by
    intro hc
    rw [hc] at hu
    exact h0 hu
  have h0len : 0 < taxa.length := by omega
  have h0mem : 0 ∈ (classifyIdx 0 taxa).2 :=
    (mem_classifyIdx_snd taxa 0 0).mpr ⟨le_rfl, by simpa using h0len, by simpa using h0⟩
  have hne1 : (classifyIdx 0 taxa).1 ≠ [] := List.ne_nil_of_mem humem
  have hne2 : (classifyIdx 0 taxa).2 ≠ [] := List.ne_nil_of_mem h0mem
  have hminmax : pyMin (classifyIdx 0 taxa).1 < pyMax (classifyIdx 0 taxa).2 :=
    lt_of_le_of_lt (pyMin_le_of_mem _ u humem) hmax
  have hdis : ∀ x ∈ (classifyIdx 0 taxa).1, x ∉ (classifyIdx 0 taxa).2 := by
    intro x hx hc
    have h1 := (mem_classifyIdx_fst taxa 0 x).mp hx
    have h2 := (mem_classifyIdx_snd taxa 0 x).mp hc
    simp only [Nat.sub_zero] at h1 h2
    exact h2.2.2 h1.2.2
  have hncl : ∀ j ∈ (classifyIdx 0 taxa).2, getCell taxa j ≠ "Unclassified" := by
    intro j hj
    have := (mem_classifyIdx_snd taxa 0 j).mp hj
    simpa using this.2.2
  obtain ⟨pre, post, hsplit⟩ := List.append_of_mem humem
  have hnd := classifyIdx_fst_nodup taxa 0
  rw [hsplit] at hnd
  have hupost : u ∉ post := (List.nodup_cons.mp (List.nodup_append.mp hnd).2.1).1
  have hprecl : ∀ x ∈ pre, x ∉ (classifyIdx 0 taxa).2 := by
    intro x hx
    exact hdis x (by rw [hsplit]; exact List.mem_append_left _ hx)
  simp only [processRowTaxa]
  rw [if_neg hne1, if_neg hne2, if_pos hminmax, if_neg h0]
  have hcl1 : ∀ j ∈ (classifyIdx 0 taxa).2,
      getCell (pre.foldl (fun tx v => if v < pyMax (classifyIdx 0 taxa).2
        then fillWalk (classifyIdx 0 taxa).2 v v 1 tx else tx) taxa) j = getCell taxa j :=
    fun j hj => fillFold_cl_cells _ _ j hj pre taxa hprecl
  have hex : ∃ c, c ∈ (classifyIdx 0 taxa).2 ∧ c < u := ⟨0, h0mem, by omega⟩
  rcases fillWalk_spec (classifyIdx 0 taxa).2 taxa u u 1 _ hcl1 hncl hex with
    ⟨c, hc1, hc2, hgap, hres⟩
  refine ⟨_, rfl, by rw [fillFold_length], c, hc1, hc2, hgap, ?_⟩
  rw [hsplit, List.foldl_append]
  simp only [List.foldl_cons]
  rw [if_pos hmax]
  rw [fillFold_cell_other _ _ u post _ hupost]
  rw [hres]
  rw [getCell_setCell_self _ _ _ (by rw [fillFold_length]; exact hulen)]
  have harith : 1 + (u - 1 - c) = u - c := by omega
  rw [harith]

/-! ## Ambiguity normalizer: loop decomposition -/

theorem ambigStep_ok_append {acc : List String} {i : Nat} {lab : String} {acc2 : List String}
    (h : ambigStep acc i lab = .ok acc2) : ∃ x, acc2 = acc ++ [x] := by
  unfold ambigStep at h
  split_ifs at h
  · injection h with h2; exact ⟨_, h2.symm⟩
  · injection h with h2; exact ⟨_, h2.symm⟩
  · cases hs : reSearchDTaxonS (getCell acc (i - 1)) with
    | none => rw [hs] at h; simp at h
    | some preTaxon =>
      rw [hs] at h
      cases hm : reMatchDTag lab with
      | none => rw [hm] at h; simp at h
      | some lvl =>
        rw [hm] at h
        injection h with h2
        exact ⟨_, h2.symm⟩
  · injection h with h2; exact ⟨_, h2.symm⟩

theorem ambigLoop_ok_length :
    ∀ (l : List String) (i : Nat) (acc out : List String),
      ambigLoop l i acc = .ok out → out.length = acc.length + l.length := by
  intro l
  induction l with
  | nil =>
    intro i acc out h
    injection h with h2
    subst h2
    simp
  | cons a l ih =>
    intro i acc out h
    rw [ambigLoop] at h
    cases hs : ambigStep acc i a with
    | error e => rw [hs] at h; simp at h
    | ok acc2 =>
      rw [hs] at h
      rcases ambigStep_ok_append hs with ⟨x, rfl⟩
      have := ih (i + 1) _ _ h
      simp at this
      simp [this]
      omega

theorem ambigLoop_ok_extends :
    ∀ (l : List String) (i : Nat) (acc out : List String),
      ambigLoop l i acc = .ok out → ∃ ext, out = acc ++ ext := by
  intro l
  induction l with
  | nil =>
    intro i acc out h
    injection h with h2
    subst h2
    exact ⟨[], by simp⟩
  | cons a l ih =>
    intro i acc out h
    rw [ambigLoop] at h
    cases hs : ambigStep acc i a with
    | error e => rw [hs] at h; simp at h
    | ok acc2 =>
      rw [hs] at h
      rcases ambigStep_ok_append hs with ⟨x, rfl⟩
      rcases ih (i + 1) _ _ h with ⟨ext, rfl⟩
      exact ⟨[x] ++ ext, by simp⟩

theorem ambigLoop_append_ok {l1 : List String} {i : Nat} {acc m : List String}
    (l2 : List String) (h : ambigLoop l1 i acc = .ok m) :
    ambigLoop (l1 ++ l2) i acc = ambigLoop l2 (i + l1.length) m := by
  induction l1 generalizing i acc with
  | nil =>
    injection h with h2
    subst h2
    simp [ambigLoop]
  | cons a l1 ih =>
    rw [ambigLoop] at h
    rw [List.cons_append, ambigLoop]
    cases hs : ambigStep acc i a with
    | error e => rw [hs] at h; simp at h
    | ok acc2 =>
      rw [hs] at h
      show ambigLoop (l1 ++ l2) (i + 1) acc2 = ambigLoop l2 (i + (a :: l1).length) m
      have hidx : i + (a :: l1).length = (i + 1) + l1.length := by simp; omega
      rw [hidx]
      exact ih h

theorem ambigLoop_prefix_ok {l1 l2 : List String} {i : Nat} {acc out : List String}
    (h : ambigLoop (l1 ++ l2) i acc = .ok out) :
    ∃ m, ambigLoop l1 i acc = .ok m ∧ ambigLoop l2 (i + l1.length) m = .ok out := by
  induction l1 generalizing i acc with
  | nil =>
    refine ⟨acc, rfl, ?_⟩
    simpa using h
  | cons a l1 ih =>
    rw [List.cons_append, ambigLoop] at h
    cases hs : ambigStep acc i a with
    | error e => rw [hs] at h; simp at h
    | ok acc2 =>
      rw [hs] at h
      rcases ih h with ⟨m, hm1, hm2⟩
      refine ⟨m, ?_, ?_⟩
      · rw [ambigLoop, hs]
        exact hm1
      · rw [show i + (a :: l1).length = (i + 1) + l1.length by simp; omega]
        exact hm2

theorem getCell_lt {r : Row} {j : Nat} (hj : j < r.length) : getCell r j = r[j] := by
  rw [getCell, List.getD_eq_getElem?_getD, List.getElem?_eq_getElem hj]
  rfl

theorem replace_ambig_taxa_step {taxa out : List String} {j : Nat}
    (hok : replace_ambig_taxa taxa = .ok out) (hj : j < taxa.length) :
    ∃ acc acc2, replace_ambig_taxa (taxa.take j) = .ok acc ∧ acc.length = j ∧
      ambigStep acc j (getCell taxa j) = .ok acc2 ∧
      (∃ x, acc2 = acc ++ [x] ∧ getCell out j = x) ∧
      (∀ m, m < j → getCell out m = getCell acc m) := by
  have hsplit : taxa = taxa.take j ++ (getCell taxa j :: taxa.drop (j + 1)) := by
    conv_lhs => rw [← List.take_append_drop j taxa]
    congr 1
    rw [List.drop_eq_getElem_cons hj, getCell_lt hj]
  rw [replace_ambig_taxa] at hok
  rw [hsplit] at hok
  rcases ambigLoop_prefix_ok hok with ⟨acc, hpre, hrest⟩
  have hlenacc : acc.length = j := by
    have := ambigLoop_ok_length _ _ _ _ hpre
    simpa [List.length_take, Nat.min_eq_left (le_of_lt hj)] using this
  have hidx : 0 + (taxa.take j).length = j := by
    simp [List.length_take, Nat.min_eq_left (le_of_lt hj)]
  rw [hidx] at hrest
  rw [ambigLoop] at hrest
  cases hstep : ambigStep acc j (getCell taxa j) with
  | error e =>
    rw [hstep] at hrest
    simp at hrest
  | ok acc2 =>
    rw [hstep] at hrest
    have hrest2 : ambigLoop (taxa.drop (j + 1)) (j + 1) acc2 = .ok out := hrest
    rcases ambigStep_ok_append hstep with ⟨x, rfl⟩
    rcases ambigLoop_ok_extends _ _ _ _ hrest2 with ⟨ext, rfl⟩
    refine ⟨acc, acc ++ [x], hpre, hlenacc, hstep, ⟨x, rfl, ?_⟩, ?_⟩
    · rw [List.append_assoc, getCell_append_right (by omega)]
      simp [hlenacc, getCell]
    · intro m hm
      rw [List.append_assoc, getCell_append_left (by omega)]

theorem ambigStep_unknown_eval {acc : List String} {j : Nat} {lab : String}
    (hfour : ∀ s ∈ str2replace, strContains (lowerStr lab) s = false)
    (hunk : strContains (lowerStr lab) "unknown" = true) :
    ambigStep acc j lab
      = if j = 0 ∨ getCell acc (j - 1) = "Unclassified" then .ok (acc ++ ["Unclassified"])
        else
          match reSearchDTaxonS (getCell acc (j - 1)) with
          | none => .error .attributeError
          | some preTaxon =>
            match reMatchDTag lab with
            | none => .error .attributeError
            | some lvl => .ok (acc ++ [lvl ++ preTaxon ++ "_X"]) := by
  have hany : str2replace.any (fun s => strContains (lowerStr lab) s) = false :=
    List.any_eq_false.mpr fun x hx => by rw [hfour x hx]; simp
  unfold ambigStep
  rw [if_neg (by simp [hany]), if_pos hunk]

/-! ## Frame lemmas: what each pass leaves untouched -/

theorem getCell_ge {r : Row} {j : Nat} (hj : r.length ≤ j) : getCell r j = "" := by
  rw [getCell, List.getD_eq_getElem?_getD, List.getElem?_eq_none hj]
  rfl

theorem getCell_drop {r : Row} {n m : Nat} : getCell (r.drop n) m = getCell r (n + m) := by
  rw [getCell, getCell, List.getD_eq_getElem?_getD, List.getD_eq_getElem?_getD,
    List.getElem?_drop]

theorem processRowTaxa_ok_length {taxa out : List String} (h : processRowTaxa taxa = .ok out) :
    out.length = taxa.length := by
  simp only [processRowTaxa] at h
  split_ifs at h
  · injection h with h2; rw [← h2]
  · injection h with h2; rw [← h2, fillFold_length]
  · injection h with h2; rw [← h2]

theorem check_intermediate_frame {t : Table} {cc : Nat} {U : Table}
    (h : check_intermediate_unclassified t cc = .ok U) :
    U.length = t.length ∧ ∀ k j, cc - 1 ≤ j → cellAt U k j = cellAt t k j := by
  rcases mapExceptRows_ok h with ⟨hlen, hget⟩
  refine ⟨hlen, ?_⟩
  intro k j hj
  by_cases hk : k < t.length
  · have hfk := hget k hk
    cases hpr : processRowTaxa ((t.getD k []).take (cc - 1)) with
    | error e =>
      simp only [hpr] at hfk
      simp at hfk
    | ok taxa2 =>
      simp only [hpr] at hfk
      injection hfk with h2
      have hlen2 : taxa2.length = ((t.getD k []).take (cc - 1)).length :=
        processRowTaxa_ok_length hpr
      rw [List.length_take] at hlen2
      rw [cellAt, cellAt, ← h2]
      by_cases hrlen : cc - 1 ≤ (t.getD k []).length
      · have htl : taxa2.length = cc - 1 := by omega
        rw [getCell_append_right (by omega), getCell_drop]
        congr 1
        omega
      · push_neg at hrlen
        have htl : taxa2.length = (t.getD k []).length := by omega
        rw [List.drop_eq_nil_of_le (by omega), List.append_nil]
        rw [getCell_ge (by omega), getCell_ge (by omega)]
  · push_neg at hk
    rw [cellAt, cellAt, getD_ge hk, getD_ge (by rw [hlen]; omega)]

theorem replace_ambig_line_frame {cc : Nat} {cells out : List String}
    (h : replace_ambig_line cc cells = .ok out) :
    out.length = cells.length ∧ ∀ j, cc ≤ j → getCell out j = getCell cells j := by
  unfold replace_ambig_line at h
  split_ifs at h with htrig
  · cases hta : replace_ambig_taxa (cells.take cc) with
    | error e =>
      simp only [hta] at h
      simp at h
    | ok taxa2 =>
      simp only [hta] at h
      injection h with h2
      subst h2
      have hlen2 : taxa2.length = min cc cells.length := by
        have := ambigLoop_ok_length (cells.take cc) 0 [] taxa2 hta
        simpa [List.length_take] using this
      constructor
      · simp only [List.length_append, List.length_drop, hlen2]
        omega
      · intro j hj
        by_cases hcl : cc ≤ cells.length
        · rw [getCell_append_right (by omega), getCell_drop]
          congr 1
          omega
        · push_neg at hcl
          rw [List.drop_eq_nil_of_le (by omega), List.append_nil]
          rw [getCell_ge (by omega), getCell_ge (by omega)]
  · injection h with h2
    subst h2
    exact ⟨rfl, fun j hj => rfl⟩

/-! ## Last helpers for the claim theorems -/

theorem uniqueAux_length_le : ∀ (l seen : List String), (uniqueAux l seen).length ≤ l.length := by
  intro l
  induction l with
  | nil => intro seen; simp [uniqueAux]
  | cons a l ih =>
    intro seen
    rw [uniqueAux]
    split_ifs
    · exact le_trans (ih seen) (by simp)
    · simpa using ih (a :: seen)

theorem distinctParents_length_le {t : Table} {i : Nat} {lab : String} :
    (distinctParents t i lab).length ≤ countLabel t i lab := by
  unfold distinctParents countLabel uniqueKeepFirst
  exact le_trans (uniqueAux_length_le _ []) (by rw [List.length_map])

theorem invCol_distinctParents_one {t : Table} {i : Nat} (hinv : InvCol t i) {L : String}
    (hL : L ≠ "Unclassified") {k : Nat} (hk : k < t.length) (hkL : cellAt t k i = L) :
    (distinctParents t i L).length = 1 := by
  have hrmem : t.getD k [] ∈ t := getD_mem hk
  have hkL2 : getCell (t.getD k []) i = L := hkL
  have hne0 : ((t.filter fun x => decide (getCell x i = L)).map fun x => getCell x (i - 1)) ≠ [] :=
    List.ne_nil_of_mem (mem_parents_of_row hrmem hkL2)
  have hall : ∀ x ∈ ((t.filter fun x => decide (getCell x i = L)).map fun x => getCell x (i - 1)),
      x = getCell (t.getD k []) (i - 1) := by
    intro x hx
    rcases List.mem_map.mp hx with ⟨r2, hr2f, hx2⟩
    rcases List.mem_filter.mp hr2f with ⟨hr2, hr2lab⟩
    have hr2L : getCell r2 i = L := by simpa using hr2lab
    rw [← hx2]
    exact invCol_mem hinv hr2 hrmem (by rw [hr2L, hkL2]) (by rw [hr2L]; exact hL)
  rw [distinctParents, uniqueKeepFirst_singleton_of_all_eq hne0 hall]
  rfl

/-! ## The claims -/

/-- C1 (amended): after the pipeline, every non-"Unclassified" label at a
level `1 ≤ i < col_count` has exactly one distinct parent value, provided no
input label of the level columns contains the literal substring `"_dup"` and
the Gap Filler pass returned the enforced table unchanged.  Both provisos are
forced: `claim1_counterexample` shows a Gap-Filler fill can merge a
synthesized label with a pre-existing one under a different parent. -/
theorem claim1_strict_hierarchy_amended (T : Table) (cc : Nat) (U : Table)
    (hrect : RectGe T cc)
    (hnt : ∀ k, k < T.length → ∀ i, i < cc → 1 ≤ i → hasDupTag (cellAt T k i) = false)
    (hok : check_intermediate_unclassified (force_strict_spf_hierarchy T cc) cc = .ok U)
    (hid : U = force_strict_spf_hierarchy T cc)
    (i : Nat) (h1 : 1 ≤ i) (h2 : i < cc) (L : String) (hL : L ≠ "Unclassified")
    (k : Nat) (hk : k < U.length) (hkL : cellAt U k i = L) :
    (distinctParents U i L).length = 1 := by
  subst hid
  have hinv := force_inv T cc hrect (fun k2 hk2 i2 hi1 hi2 => hnt k2 hk2 i2 hi2 hi1) i h1 h2
  exact invCol_distinctParents_one hinv hL hk hkL

/-- C1 counterexample: a pipeline run on `_dup`-free, rectangular input whose
output carries the label "A_X" at level 1 under the two distinct parents "B"
and "A" (the Gap Filler synthesized a second "A_X"), so the set of distinct
parents has size 2, not 1. -/
theorem claim1_counterexample :
    pipeline [["B", "A_X", "Z1", "W1"], ["A", "Unclassified", "Z2", "W2"]] 4 false
        = .ok [["B", "A_X", "Z1", "W1"], ["A", "A_X", "Z2", "W2"]]
      ∧ (distinctParents [["B", "A_X", "Z1", "W1"], ["A", "A_X", "Z2", "W2"]] 1 "A_X").length
        = 2 := by
  exact ⟨rfl, rfl⟩

/-- C1 witness. -/
theorem claim1_witness :
    (distinctParents
      (force_strict_spf_hierarchy
        [["Bacteria", "Bacteroidetes", "s1"], ["Archaea", "Bacteroidetes", "s2"]] 2)
      1 "Bacteroidetes_dup0").length = 1 := by
  exact claim1_strict_hierarchy_amended
    [["Bacteria", "Bacteroidetes", "s1"], ["Archaea", "Bacteroidetes", "s2"]] 2
    (force_strict_spf_hierarchy
      [["Bacteria", "Bacteroidetes", "s1"], ["Archaea", "Bacteroidetes", "s2"]] 2)
    (by unfold RectGe; decide) (by decide) rfl rfl 1 (by omega) (by omega)
    "Bacteroidetes_dup0" (by decide) 0 (by decide) rfl

/-- C2 (code bug): on the row (Unclassified, Unclassified, D_2__Clostridia)
with col_count 3, the scanned slice [Unclassified, Unclassified] has no
classified index, so Python's `max(classified_i)` raises an uncaught
ValueError: the run does terminate fatally, but the diagnostic is the generic
ValueError message, which does not name the offending lineage. -/
theorem claim2_root_unclassified_code_bug :
    pipeline [["Unclassified", "Unclassified", "D_2__Clostridia"]] 3 false
        = .error PyErr.valueError
      ∧ strContains (PyErr.message PyErr.valueError) "Clostridia" = false
      ∧ strContains (PyErr.message PyErr.valueError) "Unclassified" = false := by
  exact ⟨rfl, by decide, by decide⟩

/-- C3 counterexample: with col_count = 3 the Gap Filler scans only levels 0
and 1, so the classified level 2 is invisible and the row is returned
unchanged, not rewritten to "Bacteria_X". -/
theorem claim3_counterexample :
    check_intermediate_unclassified [["Bacteria", "Unclassified", "D_2__Clostridia"]] 3
        = .ok [["Bacteria", "Unclassified", "D_2__Clostridia"]]
      ∧ cellAt [["Bacteria", "Unclassified", "D_2__Clostridia"]] 0 1 = "Unclassified" := by
  exact ⟨rfl, rfl⟩

/-- C3 (amended): the row (Bacteria, Unclassified, D_2__Clostridia) is left
unchanged at col_count 3 because the scan stops at level col_count - 2; the
claimed rewrite of level 1 to "Bacteria_X" happens exactly when the
classified descendant lies inside the scanned range, e.g. at col_count 4. -/
theorem claim3_amended :
    check_intermediate_unclassified [["Bacteria", "Unclassified", "D_2__Clostridia"]] 3
        = .ok [["Bacteria", "Unclassified", "D_2__Clostridia"]]
      ∧ check_intermediate_unclassified
          [["Bacteria", "Unclassified", "D_2__Clostridia", "D_3__x"]] 4
        = .ok [["Bacteria", "Bacteria_X", "D_2__Clostridia", "D_3__x"]] := by
  exact ⟨rfl, rfl⟩

/-- C4 (code bug): a row whose scanned levels are all "Unclassified" has an
empty classified index list, and the code crashes with ValueError instead of
returning the row unchanged as its own docstring describes. -/
theorem claim4_no_classified_code_bug :
    check_intermediate_unclassified [["Unclassified", "Unclassified", "Unclassified"]] 3
      = .error PyErr.valueError := rfl

/-- C9 (amended): rerunning the hierarchy enforcer on its own output changes
nothing, provided no label of the input's level columns 1..col_count-1
contains the substring `"_dup"` (forced by `claim9_counterexample`) and rows
are rectangular. -/
theorem claim9_idempotent_amended (T : Table) (cc : Nat) (hrect : RectGe T cc)
    (hnt : ∀ k, k < T.length → ∀ i, i < cc → 1 ≤ i → hasDupTag (cellAt T k i) = false) :
    force_strict_spf_hierarchy (force_strict_spf_hierarchy T cc) cc
      = force_strict_spf_hierarchy T cc :=
  force_id_of_inv _ cc
    (force_inv T cc hrect (fun k hk i2 hi1 hi2 => hnt k hk i2 hi2 hi1))

/-- C9 counterexample: a pre-existing "L_dup0" label collides with the
renaming of "L", so a second enforcer pass renames again. -/
theorem claim9_counterexample :
    force_strict_spf_hierarchy
        (force_strict_spf_hierarchy [["P3", "L_dup0", "x1"], ["P1", "L", "x2"], ["P2", "L", "x3"]] 2) 2
      ≠ force_strict_spf_hierarchy [["P3", "L_dup0", "x1"], ["P1", "L", "x2"], ["P2", "L", "x3"]] 2 := by
  decide

/-- C9 witness. -/
theorem claim9_witness :
    force_strict_spf_hierarchy
        (force_strict_spf_hierarchy
          [["Bacteria", "Bacteroidetes", "s1"], ["Archaea", "Bacteroidetes", "s2"]] 2) 2
      = force_strict_spf_hierarchy
          [["Bacteria", "Bacteroidetes", "s1"], ["Archaea", "Bacteroidetes", "s2"]] 2 :=
  claim9_idempotent_amended _ 2 (by unfold RectGe; decide) (by decide)

/-- C5 (confirmed): on a row whose level 0 is classified, every
"Unclassified" index `u` of the scanned slice that lies below the row's
maximum classified index is overwritten with the label of the nearest
classified level below `u` followed by "_" and one "X" per step walked
back. -/
theorem claim5_gap_filler_fill (T : Table) (cc : Nat) (U : Table) (hrect : RectGe T cc)
    (hok : check_intermediate_unclassified T cc = .ok U)
    (k u : Nat) (hk : k < T.length) (hu : u + 1 < cc)
    (h0 : cellAt T k 0 ≠ "Unclassified")
    (huU : cellAt T k u = "Unclassified")
    (hmax : u < pyMax (classifyIdx 0 ((T.getD k []).take (cc - 1))).2) :
    ∃ c, c < u ∧ cellAt T k c ≠ "Unclassified" ∧
      (∀ j, c < j → j < u → cellAt T k j = "Unclassified") ∧
      cellAt U k u = cellAt T k c ++ "_" ++ xRepeat (u - c) := by
  have hrlen : cc ≤ (T.getD k []).length := hrect _ (getD_mem hk)
  have htlen : ((T.getD k []).take (cc - 1)).length = cc - 1 := by
    rw [List.length_take]
    omega
  have hucc : u < cc - 1 := by omega
  have h0' : getCell ((T.getD k []).take (cc - 1)) 0 ≠ "Unclassified" := by
    rw [getCell_take (by omega)]
    exact h0
  have hu' : getCell ((T.getD k []).take (cc - 1)) u = "Unclassified" := by
    rw [getCell_take hucc]
    exact huU
  have hulen2 : u < ((T.getD k []).take (cc - 1)).length := by omega
  rcases processRowTaxa_fill _ u h0' hu' hulen2 hmax with
    ⟨out, hpr, hol, c, hc1, hc2, hgap, hval⟩
  rcases mapExceptRows_ok hok with ⟨hlenU, hget⟩
  have hfk := hget k hk
  simp only [hpr] at hfk
  injection hfk with h2
  have hcmem := (mem_classifyIdx_snd _ 0 c).mp hc1
  simp only [Nat.sub_zero] at hcmem
  refine ⟨c, hc2, ?_, ?_, ?_⟩
  · have hcc := hcmem.2.2
    rwa [getCell_take (by omega)] at hcc
  · intro j hj1 hj2
    by_contra hjne
    apply hgap j hj1 hj2
    apply (mem_classifyIdx_snd _ 0 j).mpr
    refine ⟨Nat.zero_le j, ?_, ?_⟩
    · simp only [Nat.sub_zero]
      omega
    · simp only [Nat.sub_zero]
      rw [getCell_take (by omega)]
      exact hjne
  · rw [cellAt, ← h2, getCell_append_left (by omega : u < out.length)]
    rw [hval, getCell_take (by omega : c < cc - 1)]
    rfl

/-- C5 witness. -/
theorem claim5_witness :
    ∃ c, c < 1 ∧ cellAt [["Bacteria", "Unclassified", "D_2__C", "D_3__Y"]] 0 c ≠ "Unclassified" ∧
      (∀ j, c < j → j < 1 →
        cellAt [["Bacteria", "Unclassified", "D_2__C", "D_3__Y"]] 0 j = "Unclassified") ∧
      cellAt [["Bacteria", "Bacteria_X", "D_2__C", "D_3__Y"]] 0 1
        = cellAt [["Bacteria", "Unclassified", "D_2__C", "D_3__Y"]] 0 c ++ "_" ++ xRepeat (1 - c) :=
  claim5_gap_filler_fill [["Bacteria", "Unclassified", "D_2__C", "D_3__Y"]] 4
    [["Bacteria", "Bacteria_X", "D_2__C", "D_3__Y"]]
    (by unfold RectGe; decide) rfl 0 1 (by decide) (by omega) (by decide) rfl (by decide)

/-- C6 counterexample: in the input table the label "Foo_dup0" at level 1 has
the two distinct parents "C" (seen first) and "D", so the claim says the
(Foo_dup0, C) row becomes "Foo_dup0_dup0"; but the renaming of "Foo"
(processed earlier) collides into "Foo_dup0", shifting the discovered parent
order, and the row actually becomes "Foo_dup0_dup1". -/
theorem claim6_counterexample :
    distinctParents
        [["A", "Foo", "z1"], ["B", "Foo", "z2"], ["C", "Foo_dup0", "z3"], ["D", "Foo_dup0", "z4"]]
        1 "Foo_dup0" = ["C", "D"]
      ∧ cellAt (force_strict_spf_hierarchy
          [["A", "Foo", "z1"], ["B", "Foo", "z2"], ["C", "Foo_dup0", "z3"], ["D", "Foo_dup0", "z4"]]
          2) 2 1 = "Foo_dup0_dup1"
      ∧ "Foo_dup0_dup1" ≠ dupLabel "Foo_dup0" 0 := by
  exact ⟨rfl, rfl, by decide⟩

/-- C6 (amended): at each level `i` (processed in ascending order, with `S`
the table after levels below `i` have been processed), a non-"Unclassified"
label with more than one distinct parent in `S` is rewritten in row `k` to
`label_dupN` where `N` is the first-occurrence index of that row's parent
among the distinct parents read off `S`, provided no level-`i` label of the
input contains `"_dup"`. -/
theorem claim6_dup_renaming_amended (T : Table) (cc i k : Nat) (hrect : RectGe T cc)
    (h1 : 1 ≤ i) (h2 : i < cc) (hk : k < T.length)
    (hnt : ∀ m, m < T.length → hasDupTag (cellAt T m i) = false)
    (hlab : cellAt T k i ≠ "Unclassified")
    (hmulti : 1 < (distinctParents (force_strict_spf_hierarchy T i) i (cellAt T k i)).length) :
    cellAt (force_strict_spf_hierarchy T cc) k i
      = dupLabel (cellAt T k i)
          ((distinctParents (force_strict_spf_hierarchy T i) i (cellAt T k i)).indexOf
            (cellAt (force_strict_spf_hierarchy T i) k (i - 1))) := by
  have hklen : k < (force_strict_spf_hierarchy T i).length := by
    rw [force_length]
    exact hk
  have hrmem : (force_strict_spf_hierarchy T i).getD k [] ∈ force_strict_spf_hierarchy T i :=
    getD_mem hklen
  have hScol : cellAt (force_strict_spf_hierarchy T i) k i = cellAt T k i :=
    force_cell_high T i k i le_rfl
  have hSrect : ∀ r ∈ force_strict_spf_hierarchy T i, i < r.length := by
    intro r hr
    have := force_rect T i cc hrect r hr
    omega
  have hSnt : ∀ r ∈ force_strict_spf_hierarchy T i, hasDupTag (getCell r i) = false := by
    intro r hr
    rcases List.mem_iff_getElem.mp hr with ⟨m, hm, hmr⟩
    have hcell2 : getCell r i = cellAt (force_strict_spf_hierarchy T i) m i := by
      rw [cellAt, getD_lt hm, hmr]
    rw [hcell2, force_cell_high T i m i le_rfl]
    exact hnt m (by rw [force_length] at hm; exact hm)
  rw [force_cell_low T i h1 cc h2 k i le_rfl]
  have hstep : force_strict_spf_hierarchy T (i + 1)
      = processColumn (force_strict_spf_hierarchy T i) i := by
    rw [force_succ, if_neg (by omega)]
  rw [hstep, processColumn_char _ i h1 hSrect hSnt]
  rw [cellAt, getD_map_lt hklen]
  have hcell : getCell ((force_strict_spf_hierarchy T i).getD k []) i = cellAt T k i := hScol
  have hcnt : countLabel (force_strict_spf_hierarchy T i) i (cellAt T k i) ≠ 1 := by
    intro hc
    have hle : (distinctParents (force_strict_spf_hierarchy T i) i (cellAt T k i)).length
        ≤ countLabel (force_strict_spf_hierarchy T i) i (cellAt T k i) :=
      distinctParents_length_le
    omega
  rw [colRowMap, hcell]
  unfold labelRowMap
  rw [if_neg hlab, if_neg hcnt, if_pos hmulti, if_pos hcell]
  rw [getCell_setCell_self _ _ _ (hSrect _ hrmem)]
  rfl

/-- C6 witness (scenario A at level 1). -/
theorem claim6_witness :
    cellAt (force_strict_spf_hierarchy
        [["Bacteria", "Bacteroidetes", "s1"], ["Archaea", "Bacteroidetes", "s2"]] 2) 0 1
      = dupLabel (cellAt [["Bacteria", "Bacteroidetes", "s1"], ["Archaea", "Bacteroidetes", "s2"]] 0 1)
          ((distinctParents
            (force_strict_spf_hierarchy
              [["Bacteria", "Bacteroidetes", "s1"], ["Archaea", "Bacteroidetes", "s2"]] 1)
            1 (cellAt [["Bacteria", "Bacteroidetes", "s1"], ["Archaea", "Bacteroidetes", "s2"]] 0 1)).indexOf
            (cellAt (force_strict_spf_hierarchy
              [["Bacteria", "Bacteroidetes", "s1"], ["Archaea", "Bacteroidetes", "s2"]] 1) 0 0)) :=
  claim6_dup_renaming_amended
    [["Bacteria", "Bacteroidetes", "s1"], ["Archaea", "Bacteroidetes", "s2"]] 2 1 0
    (by unfold RectGe; decide) (by omega) (by omega) (by decide)
    (by decide) (by decide) (by decide)

/-- C7 (confirmed): in the Ambiguity Normalizer, a label whose lowercase form
contains "unknown" and none of the four ambiguous substrings becomes
"Unclassified" at the root level or under an (already rewritten) parent equal
to "Unclassified", and otherwise becomes its own `D_<digits>__` tag followed
by the taxon extracted from the rewritten parent and "_X". -/
theorem claim7_unknown_branch (taxa out : List String) (j : Nat)
    (hok : replace_ambig_taxa taxa = .ok out) (hj : j < taxa.length)
    (hfour : ∀ s ∈ str2replace, strContains (lowerStr (getCell taxa j)) s = false)
    (hunk : strContains (lowerStr (getCell taxa j)) "unknown" = true) :
    ((j = 0 ∨ getCell out (j - 1) = "Unclassified") → getCell out j = "Unclassified")
    ∧ (∀ pfx ptax, j ≠ 0 → getCell out (j - 1) ≠ "Unclassified" →
        reSearchDTaxonS (getCell out (j - 1)) = some ptax →
        reMatchDTag (getCell taxa j) = some pfx →
        getCell out j = pfx ++ ptax ++ "_X") := by
  rcases replace_ambig_taxa_step hok hj with
    ⟨acc, acc2, hpre, hlenacc, hstep, ⟨x, hx, houtj⟩, hmlt⟩
  rw [ambigStep_unknown_eval hfour hunk] at hstep
  have hparent : j ≠ 0 → getCell out (j - 1) = getCell acc (j - 1) :=
    fun hj0 => hmlt (j - 1) (by omega)
  constructor
  · intro hcond
    have hcond2 : j = 0 ∨ getCell acc (j - 1) = "Unclassified" := by
      rcases hcond with h | h
      · exact Or.inl h
      · by_cases hj0 : j = 0
        · exact Or.inl hj0
        · exact Or.inr (by rw [← hparent hj0]; exact h)
    rw [if_pos hcond2] at hstep
    injection hstep with h2
    have h3 : acc ++ ["Unclassified"] = acc ++ [x] := by rw [h2, hx]
    have h4 := List.append_cancel_left h3
    injection h4 with h5
    rw [houtj, ← h5]
  · intro pfx ptax hj0 hpar hsearch hmatch
    have hcond2 : ¬(j = 0 ∨ getCell acc (j - 1) = "Unclassified") := by
      rintro (h | h)
      · exact hj0 h
      · exact hpar (by rw [hparent hj0]; exact h)
    rw [if_neg hcond2] at hstep
    rw [hparent hj0] at hsearch
    simp only [hsearch, hmatch] at hstep
    injection hstep with h2
    have h3 : acc ++ [pfx ++ ptax ++ "_X"] = acc ++ [x] := by rw [h2, hx]
    have h4 := List.append_cancel_left h3
    injection h4 with h5
    rw [houtj, ← h5]

/-- C7 witness (the prefixed rewrite case). -/
theorem claim7_witness :
    getCell ["D_2__Bacteria", "D_3__Bacteria_X"] 1 = "D_3__" ++ "Bacteria" ++ "_X" := by
  have h := claim7_unknown_branch ["D_2__Bacteria", "D_3__unknown"]
    ["D_2__Bacteria", "D_3__Bacteria_X"] 1 rfl (by decide) (by decide) (by decide)
  exact h.2 "D_3__" "Bacteria" (by decide) (by decide) rfl rfl

/-- C8 counterexample: when the rewritten parent "Bacteria" carries no
`D_<digits>__` tag, the run does die, but with the generic AttributeError,
whose message does not contain the offending label "D_2__unknown". -/
theorem claim8_counterexample :
    replace_ambig_taxa ["Bacteria", "D_2__unknown"] = .error PyErr.attributeError
      ∧ strContains (PyErr.message PyErr.attributeError) "D_2__unknown" = false := by
  exact ⟨rfl, by decide⟩

/-- C8 (amended): whenever the "unknown" branch is taken with a non-root,
non-"Unclassified" rewritten parent and either regex fails, the whole run
fails fatally with the uncaught AttributeError, whose fixed diagnostic text
does not mention the offending label. -/
theorem claim8_missing_tag_amended (taxa : List String) (j : Nat) (acc : List String)
    (hj : j < taxa.length)
    (hpre : replace_ambig_taxa (taxa.take j) = .ok acc)
    (hfour : ∀ s ∈ str2replace, strContains (lowerStr (getCell taxa j)) s = false)
    (hunk : strContains (lowerStr (getCell taxa j)) "unknown" = true)
    (hroot : ¬(j = 0 ∨ getCell acc (j - 1) = "Unclassified"))
    (hpat : reSearchDTaxonS (getCell acc (j - 1)) = none
      ∨ reMatchDTag (getCell taxa j) = none) :
    replace_ambig_taxa taxa = .error PyErr.attributeError
      ∧ PyErr.message PyErr.attributeError
        = "AttributeError: NoneType object has no attribute group" := by
  refine ⟨?_, rfl⟩
  have hstep2 : ambigStep acc j (getCell taxa j) = .error PyErr.attributeError := by
    rw [ambigStep_unknown_eval hfour hunk, if_neg hroot]
    rcases hpat with hs | hm
    · rw [hs]
    · cases hs2 : reSearchDTaxonS (getCell acc (j - 1)) with
      | none => rfl
      | some c =>
        show (match reMatchDTag (getCell taxa j) with
          | none => Except.error PyErr.attributeError
          | some lvl => Except.ok (acc ++ [lvl ++ c ++ "_X"]))
          = Except.error PyErr.attributeError
        rw [hm]
  have hsplit : taxa = taxa.take j ++ (getCell taxa j :: taxa.drop (j + 1)) := by
    conv_lhs => rw [← List.take_append_drop j taxa]
    congr 1
    rw [List.drop_eq_getElem_cons hj, getCell_lt hj]
  have hidx : 0 + (taxa.take j).length = j := by
    simp [List.length_take, Nat.min_eq_left (le_of_lt hj)]
  show ambigLoop taxa 0 [] = .error PyErr.attributeError
  conv_lhs => rw [hsplit]
  rw [ambigLoop_append_ok _ hpre, hidx, ambigLoop, hstep2]

/-- C8 witness. -/
theorem claim8_witness :
    replace_ambig_taxa ["Bacteria", "D_2__unknown", "D_3__z"] = .error PyErr.attributeError
      ∧ PyErr.message PyErr.attributeError
        = "AttributeError: NoneType object has no attribute group" :=
  claim8_missing_tag_amended ["Bacteria", "D_2__unknown", "D_3__z"] 1 ["Bacteria"]
    (by decide) rfl (by decide) (by decide) (by decide) (Or.inl rfl)

/-- C10 (confirmed): the pipeline keeps the number and order of rows and all
columns with index at least col_count identical between input and output, and
the Gap Filler pass never alters the terminal level column col_count - 1 of
whatever table it is given. -/
theorem claim10_frame_effect (t : Table) (cc : Nat) (amb : Bool) (U : Table)
    (hok : pipeline t cc amb = .ok U) :
    (U.length = t.length ∧ ∀ k j, cc ≤ j → cellAt U k j = cellAt t k j)
    ∧ (∀ t2 V, check_intermediate_unclassified t2 cc = .ok V →
        ∀ k, cellAt V k (cc - 1) = cellAt t2 k (cc - 1)) := by
  constructor
  · unfold pipeline at hok
    cases amb with
    | false =>
      have hok2 : check_intermediate_unclassified (force_strict_spf_hierarchy t cc) cc
          = .ok U := hok
      have hframe := check_intermediate_frame hok2
      constructor
      · rw [hframe.1, force_length]
      · intro k j hj
        rw [hframe.2 k j (by omega), force_cell_high t cc k j hj]
    | true =>
      cases hlines : replace_ambig_lines cc t with
      | error e =>
        rw [hlines] at hok
        simp at hok
      | ok t1 =>
        rw [hlines] at hok
        have hok2 : check_intermediate_unclassified (force_strict_spf_hierarchy t1 cc) cc
            = .ok U := hok
        have hframe := check_intermediate_frame hok2
        rcases mapExceptRows_ok hlines with ⟨hlen1, hget1⟩
        constructor
        · rw [hframe.1, force_length, hlen1]
        · intro k j hj
          rw [hframe.2 k j (by omega), force_cell_high t1 cc k j hj]
          by_cases hk : k < t.length
          · have hline := replace_ambig_line_frame (hget1 k hk)
            exact hline.2 j hj
          · push_neg at hk
            have hk1 : List.length t1 ≤ k := by omega
            rw [cellAt, cellAt, getD_ge hk1, getD_ge hk]
  · intro t2 V hV k
    exact (check_intermediate_frame hV).2 k (cc - 1) le_rfl

/-- C10 witness. -/
theorem claim10_witness :
    cellAt [["Bacteria", "Bacteroidetes_dup0", "5", "6"], ["Archaea", "Bacteroidetes_dup1", "7", "8"]] 0 2
      = cellAt [["Bacteria", "Bacteroidetes", "5", "6"], ["Archaea", "Bacteroidetes", "7", "8"]] 0 2 := by
  have h := claim10_frame_effect
    [["Bacteria", "Bacteroidetes", "5", "6"], ["Archaea", "Bacteroidetes", "7", "8"]] 2 false
    [["Bacteria", "Bacteroidetes_dup0", "5", "6"], ["Archaea", "Bacteroidetes_dup1", "7", "8"]] rfl
  exact h.1.2 0 2 (by omega)

end FixSpf
